import Mathlib

/-!
Verification of the pdf-renamer utility (`rename.py`).

The Python source is shallowly embedded: strings are Lean `String`s /
`List Char`, the PDF library calls (`PyPDF2`, `fitz`) are abstracted into a
`PdfFile` record carrying the data those calls would return (with `none`
standing for the exception path), the filesystem is a list of files, the
collision `defaultdict` is an association list, and the Unicode
normalization function from the standard library is a parameter `nf` of
every definition that calls `normalize_text`.
-/

namespace PdfRenamer

/-- The whitespace class used by Python's `str.strip`, `str.split` and the
regex class `\s` (ASCII part; the rare non-ASCII Unicode spaces are not used
by any concrete input in this development). -/
def isWs (c : Char) : Bool :=
  c = ' ' || c = '\t' || c = '\n' || c = '\r' || c.val = 11 || c.val = 12

/-- U+00E9, latin small letter e with acute: the one non-ASCII letter used in
concrete inputs of this development. -/
def eAcute : Char := Char.ofNat 233

/-- U+0301, combining acute accent (a mark, not a word character). -/
def combAcute : Char := Char.ofNat 769

/-- Python's regex class `\w` (letters, digits, underscore).  It is modelled
exactly on ASCII; of the non-ASCII word characters only `eAcute`, the one
appearing in this development's concrete inputs, is listed explicitly. -/
def isWordChar (c : Char) : Bool :=
  c.isAlphanum || c = '_' || c = eAcute

/-- The punctuation kept by `normalize_text`'s character strip
(`re.sub(r'[^\w\s\-.,:;()&%/|+_]', '', text)`). -/
def keepPunct : List Char :=
  ['-', '.', ',', ':', ';', '(', ')', '&', '%', '/', '|', '+', '_']

/-- A character survives `re.sub(r'[^\w\s\-.,:;()&%/|+_]', '', text)`. -/
def keepChar (c : Char) : Bool :=
  isWordChar c || isWs c || keepPunct.contains c

/-- Python `str.strip()` on a character list: drop whitespace from both
ends. -/
def pyStrip (cs : List Char) : List Char :=
  ((cs.dropWhile isWs).reverse.dropWhile isWs).reverse

/-- Worker for `collapseWs`; the flag records whether the previous character
was whitespace (i.e. whether we are inside a run that already emitted its
single replacement space). -/
def collapseWsAux : Bool → List Char → List Char
  | _, [] => []
  | prev, c :: rest =>
    if isWs c then
      if prev then collapseWsAux true rest
      else ' ' :: collapseWsAux true rest
    else c :: collapseWsAux false rest

/-- Python `re.sub(r'\s+', ' ', text)`: replace each maximal whitespace run
by a single space. -/
def collapseWs (cs : List Char) : List Char :=
  collapseWsAux false cs

/-- The cleaning pipeline of `normalize_text` after the Unicode
normalization call: strip, remove disallowed characters, collapse whitespace
runs, strip again.  (This is the "cleaned result" whose length the `> 3`
test inspects.) -/
def cleanedCore (s : String) : List Char :=
  pyStrip (collapseWs ((pyStrip s.toList).filter keepChar))

/-- `normalize_text` from `rename.py`.  `nf` stands for
`unicodedata.normalize('NFKD', ·)` of the Python standard library, which is
external to this repository and therefore kept as a parameter. -/
def normalize_text (nf : String → String) (text : String) : String :=
  if text = "" then "Untitled"
  else
    let cs := cleanedCore (nf text)
    if 3 < cs.length then String.mk cs else "Untitled"

/-- `MAX_FILENAME_LENGTH` from `rename.py`. -/
def MAX_FILENAME_LENGTH : Nat := 100

/-- The OS-reserved characters `< > : " / \ | ? *` replaced by
`sanitize_filename`. -/
def invalidChar (c : Char) : Bool :=
  ['<', '>', ':', '\"', '/', '\\', '|', '?', '*'].contains c

/-- `re.sub(r'[<>:"/\\|?*]', '_', title)` on one character. -/
def replaceInvalid (c : Char) : Char :=
  if invalidChar c then '_' else c

/-- Worker for `pySplit`, accumulating the current word reversed. -/
def pySplitAux : List Char → List Char → List (List Char)
  | [], acc => if acc = [] then [] else [acc.reverse]
  | c :: rest, acc =>
    if isWs c then
      if acc = [] then pySplitAux rest [] else acc.reverse :: pySplitAux rest []
    else pySplitAux rest (c :: acc)

/-- Python `str.split()` (no argument): split on whitespace runs, never
producing empty words. -/
def pySplit (cs : List Char) : List (List Char) :=
  pySplitAux cs []

/-- The word-rebuilding loop of `sanitize_filename`: append `word + " "`
while the running length stays within the limit, `break` at the first word
that would overflow. -/
def buildLoop (maxLen : Nat) : List (List Char) → List Char → List Char
  | [], acc => acc
  | w :: ws, acc =>
    if acc.length + w.length + 1 ≤ maxLen then
      buildLoop maxLen ws (acc ++ w ++ [' '])
    else acc

/-- `sanitize_filename` from `rename.py`. -/
def sanitize_filename (title : String) : String :=
  let cs := title.toList.map replaceInvalid
  if MAX_FILENAME_LENGTH < cs.length then
    String.mk (pyStrip (buildLoop MAX_FILENAME_LENGTH (pySplit cs) []))
  else String.mk cs

/-- Worker for `pathStem`: index of the last `'.'`, if any. -/
def lastDotIdxAux : List Char → Nat → Option Nat → Option Nat
  | [], _, acc => acc
  | c :: rest, i, acc => lastDotIdxAux rest (i + 1) (if c = '.' then some i else acc)

/-- `pathlib.Path(name).stem` for a final path component `name`: the name
without its suffix, where a suffix starts at the last dot `i` with
`0 < i < len - 1`. -/
def pathStem (name : String) : String :=
  let cs := name.toList
  match lastDotIdxAux cs 0 none with
  | some i => if 0 < i ∧ i < cs.length - 1 then String.mk (cs.take i) else name
  | none => name

/-- Little-endian decimal digits of `n`, with explicit fuel (`n` itself is
always enough fuel, as proved in `decDigits_eq_digits`). -/
def decDigits : Nat → Nat → List Nat
  | 0, _ => []
  | _ + 1, 0 => []
  | fuel + 1, n + 1 => (n + 1) % 10 :: decDigits fuel ((n + 1) / 10)

/-- Decimal rendering of a natural number, i.e. Python `str(counter)` in the
f-string `f"{safe_title}_{counter}.pdf"`. -/
def decRepr (n : Nat) : String :=
  if n = 0 then "0" else String.mk ((decDigits n n).reverse.map Nat.digitChar)

/-- A full path: parent directory and final component.  `rename.py` only
ever renames within the parent (`pdf_path.parent / base_name`). -/
structure FsPath where
  dir : String
  name : String
deriving DecidableEq, Repr

/-- One PDF file as the script sees it: its location plus the data the two
PDF libraries would deliver for it.
* `metaRead = none`: reading the metadata raises (logged, swallowed);
  `some none`: no `/Title` field (`metadata.get('/Title','')` gives `''`);
  `some (some t)`: the raw title field `t`.
* `pages = none`: `fitz.open`/text extraction raises (logged, swallowed);
  `some texts`: the page texts `get_text("text")` would return, in order. -/
structure PdfFile where
  dir : String
  name : String
  metaRead : Option (Option String)
  pages : Option (List String)
deriving DecidableEq, Repr

def PdfFile.path (f : PdfFile) : FsPath := ⟨f.dir, f.name⟩

/-- The file `g` as it stands after being renamed to path `q` (same
content, new location). -/
def movedTo (g : PdfFile) (q : FsPath) : PdfFile :=
  { g with dir := q.dir, name := q.name }

/-- The denylist of `get_pdf_title_metadata`. -/
def irrelevantPhrases : List String := ["paper title", "draft", "untitled"]

/-- Python `str.lower()` (ASCII case mapping; the non-ASCII characters in
this development's inputs are unaffected by lowercasing). -/
def pyLower (s : String) : String :=
  String.mk (s.toList.map Char.toLower)

/-- `any(phrase in title.lower() for phrase in [...])`. -/
def phraseHit (title : String) : Bool :=
  irrelevantPhrases.any fun p => decide (p.toList <:+: (pyLower title).toList)

/-- `get_pdf_title_metadata` from `rename.py`: the raw field is rejected if
absent/empty or if it contains a denylisted phrase case-insensitively;
exceptions yield `None`. -/
def get_pdf_title_metadata (nf : String → String) (f : PdfFile) : Option String :=
  match f.metaRead with
  | none => none
  | some m =>
    let title := m.getD ""
    if title ≠ "" && !(phraseHit title) then some (normalize_text nf title)
    else none

/-- Python `text.split("\n")`: split at every newline, keeping empty
pieces (worker carries the current piece reversed). -/
def splitNlAux : List Char → List Char → List String
  | [], acc => [String.mk acc.reverse]
  | c :: rest, acc =>
    if c = '\n' then String.mk acc.reverse :: splitNlAux rest []
    else splitNlAux rest (c :: acc)

/-- Python `text.split("\n")`. -/
def splitNl (s : String) : List String :=
  splitNlAux s.toList []

/-- `len(cleaned_line) > 4 and not re.match(r'^\d{4}$', cleaned_line)`
applied to one raw line, returning the accepted cleaned line. -/
def acceptTextLine (nf : String → String) (line : String) : Option String :=
  let cleaned := normalize_text nf line
  if 4 < cleaned.length && !(cleaned.length = 4 && cleaned.toList.all Char.isDigit)
  then some cleaned else none

/-- `get_pdf_title_text` from `rename.py`: scan up to the first 3 pages,
line by line, returning the first accepted cleaned line. -/
def get_pdf_title_text (nf : String → String) (f : PdfFile) : Option String :=
  match f.pages with
  | none => none
  | some pages =>
    (pages.take 3).findSome? fun text =>
      if text = "" then none
      else (splitNl text).findSome? (acceptTextLine nf)

/-- The character class of the regex `^[A-Za-z0-9\s\-_&,:;.!?()]+$`. -/
def regexAllowed (c : Char) : Bool :=
  c.isAlphanum || isWs c || ['-', '_', '&', ',', ':', ';', '.', '!', '?', '(', ')'].contains c

/-- `re.match(r"^[A-Za-z0-9\s\-_&,:;.!?()]+$", cleaned) and len(cleaned) > 5`
applied to one raw line. -/
def acceptRegexLine (nf : String → String) (line : String) : Option String :=
  let cleaned := normalize_text nf line
  if (!(cleaned.toList = []) && cleaned.toList.all regexAllowed) && 5 < cleaned.length
  then some cleaned else none

/-- `get_pdf_title_using_regex` from `rename.py`. -/
def get_pdf_title_using_regex (nf : String → String) (f : PdfFile) : Option String :=
  match f.pages with
  | none => none
  | some pages =>
    (pages.take 3).findSome? fun text =>
      if text = "" then none
      else (splitNl text).findSome? (acceptRegexLine nf)

/-- Python truthiness of an optional string (`if title:`): `None` and the
empty string are falsy. -/
def truthy : Option String → Option String
  | some s => if s = "" then none else some s
  | none => none

/-- `extract_best_title` from `rename.py`: first truthy extractor result,
else the filename stem. -/
def extract_best_title (nf : String → String) (f : PdfFile) : String :=
  match truthy (get_pdf_title_metadata nf f) with
  | some t => t
  | none =>
    match truthy (get_pdf_title_text nf f) with
    | some t => t
    | none =>
      match truthy (get_pdf_title_using_regex nf f) with
      | some t => t
      | none => pathStem f.name

/-- The collision table (`existing_titles : defaultdict(int)`): an
association list from base filename to assignment count. -/
def Table := List (String × Nat)

/-- `existing_titles[base_name]` (0 when absent, as for `defaultdict(int)`). -/
def tblGet (tbl : Table) (k : String) : Nat :=
  match tbl.find? (fun e => e.1 == k) with
  | some e => e.2
  | none => 0

/-- `existing_titles[base_name] = v`. -/
def tblSet (tbl : Table) (k : String) (v : Nat) : Table :=
  (k, v) :: tbl

/-- `rename_pdf` from `rename.py`: compute the new path of `f` and the
updated collision table.  (The Python function mutates the shared
`defaultdict`; here the updated table is returned.) -/
def rename_pdf (nf : String → String) (f : PdfFile) (tbl : Table) : FsPath × Table :=
  let title := extract_best_title nf f
  let safe_title := sanitize_filename title
  if safe_title = "" || pyLower safe_title = "untitled" then (f.path, tbl)
  else
    let base_name := safe_title ++ ".pdf"
    let counter := tblGet tbl base_name
    let tbl' := tblSet tbl base_name (counter + 1)
    if 0 < counter then (⟨f.dir, safe_title ++ "_" ++ decRepr counter ++ ".pdf"⟩, tbl')
    else (⟨f.dir, base_name⟩, tbl')

/-- The filesystem: the list of files, in the enumeration order `rglob`
would produce them. -/
abbrev Fs := List PdfFile

/-- Does a file exist at path `p`? -/
def findFile (fs : Fs) (p : FsPath) : Option PdfFile :=
  fs.find? fun f => decide (f.path = p)

def fsExists (fs : Fs) (p : FsPath) : Bool :=
  (findFile fs p).isSome

/-- `os.rename(old, new)`: the file at `old` now lives at `new`; its
content is untouched. -/
def renameFile (fs : Fs) (old new : FsPath) : Fs :=
  fs.map fun f =>
    if f.path = old then { f with dir := new.dir, name := new.name } else f

/-- Observable actions of one run: the log lines and rename side effects.
`skipped src tgt` records the "No change or already exists" branch together
with the target the code had computed there. -/
inductive Event where
  | errorMissingDir : Event
  | warnMissing : FsPath → Event
  | renamed : FsPath → FsPath → Event
  | renameFailed : FsPath → FsPath → Event
  | skipped : FsPath → FsPath → Event
deriving DecidableEq, Repr

/-- The body of the `for pdf_file in pdf_files:` loop for one snapshot path
`p`.  `renameOk` is the oracle deciding whether `os.rename` succeeds (a
failure is logged and the run continues). -/
def processOne (nf : String → String) (renameOk : FsPath → FsPath → Bool)
    (st : Fs × Table × List Event) (p : FsPath) : Fs × Table × List Event :=
  let fs := st.1
  let tbl := st.2.1
  let log := st.2.2
  match findFile fs p with
  | none => (fs, tbl, log ++ [.warnMissing p])
  | some pdf =>
    let r := rename_pdf nf pdf tbl
    if r.1 ≠ p ∧ fsExists fs r.1 = false then
      if renameOk p r.1 then (renameFile fs p r.1, r.2, log ++ [.renamed p r.1])
      else (fs, r.2, log ++ [.renameFailed p r.1])
    else (fs, r.2, log ++ [.skipped p r.1])

/-- The name test of `rglob("*.pdf")`: the file name ends in `".pdf"`. -/
def isPdfName (name : String) : Bool :=
  decide (".pdf".toList <:+ name.toList)

/-- `directory.rglob("*.pdf")`: the paths of the `.pdf` files, in
filesystem order. -/
def enumerate (fs : Fs) : List FsPath :=
  (fs.filter fun f => isPdfName f.name).map PdfFile.path

/-- `rename_pdfs_in_directory` from `rename.py`: missing directory is
fatal (one error, nothing else happens); otherwise pick the snapshot,
start a fresh collision table and process each snapshot path in order.
Returns the final filesystem and the run's events. -/
def rename_pdfs_in_directory (nf : String → String) (renameOk : FsPath → FsPath → Bool)
    (rootExists : Bool) (fs : Fs) : Fs × List Event :=
  if rootExists = false then (fs, [.errorMissingDir])
  else
    let res := (enumerate fs).foldl (processOne nf renameOk) (fs, [], [])
    (res.1, res.2.2)

/-- The extractor chain of `extract_best_title` before the stem fallback:
the first truthy extractor result.  It reads only the file's content
(`metaRead`, `pages`), never its name. -/
def chainTitle (nf : String → String) (f : PdfFile) : Option String :=
  (truthy (get_pdf_title_metadata nf f)).or
    ((truthy (get_pdf_title_text nf f)).or (truthy (get_pdf_title_using_regex nf f)))

/-- The sequence of `rename_pdf` calls the orchestrator performs (shared
table, enumeration order): the computed new paths and the final table. -/
def renameSeq (nf : String → String) : List PdfFile → Table → List FsPath × Table
  | [], tbl => ([], tbl)
  | f :: fsr, tbl =>
    let r := rename_pdf nf f tbl
    let rest := renameSeq nf fsr r.2
    (r.1 :: rest.1, rest.2)

/-- Starting from table `tbl`, each listed file's computed target is its own
current path (so the orchestrator's step 4 skips every one of them). -/
def selfTargets (nf : String → String) : Table → List PdfFile → Prop
  | _, [] => True
  | tbl, f :: fsr =>
    (rename_pdf nf f tbl).1 = f.path ∧ selfTargets nf (rename_pdf nf f tbl).2 fsr

/-- The collision scheme's `k`-th name for base title `t`: bare for `k = 0`,
suffixed `_k` afterwards. -/
def expectedName (t : String) (k : Nat) : String :=
  if k = 0 then t ++ ".pdf" else t ++ "_" ++ decRepr k ++ ".pdf"

/-- A rename oracle under which `os.rename` always succeeds. -/
def alwaysOk : FsPath → FsPath → Bool := fun _ _ => true

/-- No two consecutive whitespace characters. -/
def noDoubleWs : List Char → Bool
  | a :: b :: rest => !(isWs a && isWs b) && noDoubleWs (b :: rest)
  | _ => true

/-- Neither the first nor the last character is whitespace. -/
def noEdgeWs (cs : List Char) : Bool :=
  (match cs.head? with | some c => !isWs c | none => true) &&
  (match cs.getLast? with | some c => !isWs c | none => true)

/-- Words joined by single spaces: the shape the specification asserts for
a truncated `sanitize_filename` result. -/
def joinSp : List (List Char) → List Char
  | [] => []
  | [w] => w
  | w :: ws => w ++ ' ' :: joinSp ws

/-- Words each followed by one space: the exact string `sanitize_filename`'s
loop accumulates before its final strip. -/
def joinTrail (ws : List (List Char)) : List Char :=
  ws.foldr (fun w r => w ++ ' ' :: r) []

/-- The cleaning steps of `normalize_text` after the Unicode normalization
call, as an operation on the already-normalized text: strip, character
strip, whitespace collapse, trim, short-result fallback. -/
def cleanSteps (s : String) : String :=
  let cs := cleanedCore s
  if 3 < cs.length then String.mk cs else "Untitled"

/-- Modelled from the Unicode standard: the decomposition mapping of
`unicodedata.normalize('NFKD', ·)` (Python standard library, external to
this repository) on one character.  Identity on ASCII; of the non-ASCII
characters, only `eAcute`, the one used in this development's concrete
inputs, is listed (U+00E9 decomposes to U+0065 U+0301 per UnicodeData). -/
def nfkdChar (c : Char) : List Char :=
  if c = eAcute then ['e', combAcute] else [c]

/-- Modelled from the Unicode standard: `unicodedata.normalize('NFKD', ·)`,
compatibility decomposition (no recomposition). -/
def nfkdModel (s : String) : String :=
  String.mk (s.toList.map nfkdChar).flatten

/-- Modelled from the spec: "canonical decomposition/recomposition
normalization", i.e. NFC.  The concrete inputs used in this development are
already NFC-normalized (precomposed), so NFC is the identity on them. -/
def nfcModel (s : String) : String := s

/-- "Café" with a precomposed U+00E9: NFC leaves it unchanged, NFKD
decomposes the accent into a combining mark. -/
def cafeStr : String := String.mk ['C', 'a', 'f', eAcute]

/-- The flattened scan sequence of the text extractors: the lines of the
first (up to) 3 non-empty page texts, in order. -/
def scanLines (pages : List String) : List String :=
  (pages.take 3).foldr
    (fun text acc => (if text = "" then [] else splitNl text) ++ acc) []

/-! ### Whitespace and list helper lemmas -/

theorem head?_dropWhile_not (p : Char → Bool) :
    ∀ (l : List Char) {c : Char}, ((l.dropWhile p).head? = some c) → p c = false := by
  intro l
  induction l with
  | nil => intro c h; simp [List.dropWhile] at h
  | cons a l ih =>
    intro c h
    rw [List.dropWhile_cons] at h
    by_cases hpa : p a
    · rw [if_pos hpa] at h; exact ih h
    · rw [if_neg hpa] at h
      simp only [List.head?_cons, Option.some.injEq] at h
      subst h
      exact Bool.eq_false_iff.mpr hpa

theorem getLast?_dropWhile_keep (p : Char → Bool) :
    ∀ (l : List Char) {c : Char}, l.getLast? = some c → p c = false →
      (l.dropWhile p).getLast? = some c := by
  intro l
  induction l with
  | nil => intro c h _; simp at h
  | cons a l ih =>
    intro c h hc
    cases l with
    | nil =>
      simp only [List.getLast?_singleton, Option.some.injEq] at h
      subst h
      rw [List.dropWhile_cons, if_neg (by simp [hc])]
      simp
    | cons b t =>
      rw [List.getLast?_cons_cons] at h
      rw [List.dropWhile_cons]
      by_cases hpa : p a
      · rw [if_pos hpa]; exact ih h hc
      · rw [if_neg hpa, List.getLast?_cons_cons]; exact h

theorem dropWhile_eq_self_of_head (p : Char → Bool) (l : List Char) {c : Char}
    (h : l.head? = some c) (hc : p c = false) : l.dropWhile p = l := by
  cases l with
  | nil => simp at h
  | cons a t =>
    simp only [List.head?_cons, Option.some.injEq] at h
    subst h
    rw [List.dropWhile_cons, if_neg (by simp [hc])]

theorem noDoubleWs_nil : noDoubleWs [] = true := rfl

theorem noDoubleWs_tail {a : Char} {l : List Char} (h : noDoubleWs (a :: l) = true) :
    noDoubleWs l = true := by
  cases l with
  | nil => rfl
  | cons b t =>
    have := (Bool.and_eq_true _ _).mp h
    exact this.2

theorem noDoubleWs_cons {x : Char} {m : List Char} (hm : noDoubleWs m = true)
    (hh : ∀ d, m.head? = some d → (isWs x && isWs d) = false) :
    noDoubleWs (x :: m) = true := by
  cases m with
  | nil => rfl
  | cons d t =>
    show (!(isWs x && isWs d) && noDoubleWs (d :: t)) = true
    rw [hh d rfl, hm]
    rfl

theorem noDoubleWs_head {x d : Char} {t : List Char}
    (h : noDoubleWs (x :: d :: t) = true) : (isWs x && isWs d) = false := by
  have h2 := (Bool.and_eq_true _ _).mp h
  have h3 := h2.1
  rw [Bool.not_eq_true'] at h3
  exact h3

theorem noDoubleWs_dropWhile (p : Char → Bool) :
    ∀ (l : List Char), noDoubleWs l = true → noDoubleWs (l.dropWhile p) = true := by
  intro l
  induction l with
  | nil => intro h; exact h
  | cons a l ih =>
    intro h
    rw [List.dropWhile_cons]
    by_cases hpa : p a
    · rw [if_pos hpa]; exact ih (noDoubleWs_tail h)
    · rw [if_neg hpa]; exact h

theorem noDoubleWs_append_one :
    ∀ (l : List Char) (a : Char), noDoubleWs l = true →
      (∀ b, l.getLast? = some b → (isWs b && isWs a) = false) →
      noDoubleWs (l ++ [a]) = true := by
  intro l
  induction l with
  | nil => intro a _ _; rfl
  | cons x l ih =>
    intro a h hl
    cases l with
    | nil =>
      show (!(isWs x && isWs a) && noDoubleWs [a]) = true
      rw [hl x rfl]
      rfl
    | cons y t =>
      show noDoubleWs (x :: y :: (t ++ [a])) = true
      have h1 : (isWs x && isWs y) = false := noDoubleWs_head h
      have h2 : noDoubleWs ((y :: t) ++ [a]) = true := by
        refine ih a (noDoubleWs_tail h) ?_
        intro b hb
        exact hl b (by rw [List.getLast?_cons_cons]; exact hb)
      show (!(isWs x && isWs y) && noDoubleWs (y :: (t ++ [a]))) = true
      rw [h1]
      simpa using h2

theorem noDoubleWs_reverse :
    ∀ (l : List Char), noDoubleWs l = true → noDoubleWs l.reverse = true := by
  intro l
  induction l with
  | nil => intro h; exact h
  | cons x l ih =>
    intro h
    rw [List.reverse_cons]
    refine noDoubleWs_append_one _ x (ih (noDoubleWs_tail h)) ?_
    intro b hb
    rw [List.getLast?_reverse] at hb
    cases l with
    | nil => simp at hb
    | cons y t =>
      simp only [List.head?_cons, Option.some.injEq] at hb
      subst hb
      rw [Bool.and_comm]
      exact noDoubleWs_head h

theorem mem_pyStrip {l : List Char} {c : Char} (h : c ∈ pyStrip l) : c ∈ l := by
  unfold pyStrip at h
  rw [List.mem_reverse] at h
  have h2 := (List.dropWhile_sublist (l := (l.dropWhile isWs).reverse) isWs).subset h
  rw [List.mem_reverse] at h2
  exact (List.dropWhile_sublist isWs).subset h2

theorem pyStrip_length_le (l : List Char) : (pyStrip l).length ≤ l.length := by
  unfold pyStrip
  rw [List.length_reverse]
  calc ((l.dropWhile isWs).reverse.dropWhile isWs).length
      ≤ (l.dropWhile isWs).reverse.length :=
        (List.dropWhile_sublist isWs).length_le
    _ = (l.dropWhile isWs).length := List.length_reverse _
    _ ≤ l.length := (List.dropWhile_sublist isWs).length_le

theorem noDoubleWs_pyStrip {l : List Char} (h : noDoubleWs l = true) :
    noDoubleWs (pyStrip l) = true := by
  unfold pyStrip
  exact noDoubleWs_reverse _ (noDoubleWs_dropWhile _ _
    (noDoubleWs_reverse _ (noDoubleWs_dropWhile _ _ h)))

theorem getLast?_dropWhile_eq (p : Char → Bool) (m : List Char) {c : Char}
    (h : (m.dropWhile p).getLast? = some c) : m.getLast? = some c := by
  conv_lhs => rw [← List.takeWhile_append_dropWhile p m]
  rw [List.getLast?_append, h]
  rfl

theorem noEdgeWs_pyStrip (l : List Char) : noEdgeWs (pyStrip l) = true := by
  unfold pyStrip noEdgeWs
  rw [List.head?_reverse, List.getLast?_reverse, Bool.and_eq_true]
  constructor
  · cases hG : ((l.dropWhile isWs).reverse.dropWhile isWs).getLast? with
    | none => rfl
    | some c =>
      have h1 : (l.dropWhile isWs).reverse.getLast? = some c :=
        getLast?_dropWhile_eq isWs _ hG
      rw [List.getLast?_reverse] at h1
      have hc : isWs c = false := head?_dropWhile_not isWs l h1
      show (!isWs c) = true
      rw [hc]
      rfl
  · cases hX : ((l.dropWhile isWs).reverse.dropWhile isWs).head? with
    | none => rfl
    | some c =>
      have hc := head?_dropWhile_not isWs _ hX
      show (!isWs c) = true
      rw [hc]
      rfl

theorem mem_collapseWsAux :
    ∀ (l : List Char) (b : Bool) {c : Char}, c ∈ collapseWsAux b l → c = ' ' ∨ c ∈ l := by
  intro l
  induction l with
  | nil => intro b c h; simp [collapseWsAux] at h
  | cons a t ih =>
    intro b c h
    by_cases hws : isWs a
    · cases b with
      | true =>
        simp only [collapseWsAux, hws, if_true] at h
        rcases ih true h with h' | h'
        · exact Or.inl h'
        · exact Or.inr (List.mem_cons_of_mem _ h')
      | false =>
        simp only [collapseWsAux, hws, if_true] at h
        rcases List.mem_cons.mp h with h' | h'
        · exact Or.inl h'
        · rcases ih true h' with h'' | h''
          · exact Or.inl h''
          · exact Or.inr (List.mem_cons_of_mem _ h'')
    · have hws' : isWs a = false := Bool.eq_false_iff.mpr hws
      simp only [collapseWsAux, hws', Bool.false_eq_true, if_false] at h
      rcases List.mem_cons.mp h with h' | h'
      · exact Or.inr (by rw [h']; exact List.mem_cons_self _ _)
      · rcases ih false h' with h'' | h''
        · exact Or.inl h''
        · exact Or.inr (List.mem_cons_of_mem _ h'')

theorem collapseWsAux_good :
    ∀ (l : List Char) (b : Bool),
      noDoubleWs (collapseWsAux b l) = true ∧
      (b = true → ∀ c, (collapseWsAux b l).head? = some c → isWs c = false) := by
  intro l
  induction l with
  | nil =>
    intro b
    exact ⟨rfl, by intro _ c h; simp [collapseWsAux] at h⟩
  | cons a t ih =>
    intro b
    by_cases hws : isWs a
    · cases b with
      | true =>
        have h1 := ih true
        constructor
        · simpa [collapseWsAux, hws] using h1.1
        · intro _ c hc
          refine h1.2 rfl c ?_
          simpa [collapseWsAux, hws] using hc
      | false =>
        have hres : collapseWsAux false (a :: t) = ' ' :: collapseWsAux true t := by
          simp [collapseWsAux, hws]
        constructor
        · rw [hres]
          refine noDoubleWs_cons (ih true).1 ?_
          intro d hd
          rw [(ih true).2 rfl d hd, Bool.and_false]
        · intro hb
          exact absurd hb (by simp)
    · have hws' : isWs a = false := Bool.eq_false_iff.mpr hws
      have hres : collapseWsAux b (a :: t) = a :: collapseWsAux false t := by
        cases b <;> simp [collapseWsAux, hws']
      constructor
      · rw [hres]
        refine noDoubleWs_cons (ih false).1 ?_
        intro d _
        rw [hws', Bool.false_and]
      · intro _ c hc
        rw [hres] at hc
        simp only [List.head?_cons, Option.some.injEq] at hc
        rw [← hc]
        exact hws'

theorem noDoubleWs_cleanedCore (s : String) : noDoubleWs (cleanedCore s) = true :=
  noDoubleWs_pyStrip (collapseWsAux_good _ false).1

theorem noEdgeWs_cleanedCore (s : String) : noEdgeWs (cleanedCore s) = true :=
  noEdgeWs_pyStrip _

theorem cleanedCore_all_keep (s : String) :
    ∀ c ∈ cleanedCore s, keepChar c = true := by
  intro c hc
  unfold cleanedCore at hc
  have h1 := mem_pyStrip hc
  unfold collapseWs at h1
  rcases mem_collapseWsAux _ false h1 with h | h
  · subst h; decide
  · exact List.of_mem_filter h

/-! ### Claim C3: output shape of the normalizer -/

/-- C3: `normalize_text` returns exactly `"Untitled"` when the input is
empty or the cleaned result has at most 3 characters; for any other input
it returns the cleaned result itself, which contains only the allowed
characters (word characters, whitespace and the kept punctuation), has no
two consecutive whitespace characters, and has no leading or trailing
whitespace. -/
theorem normalize_text_spec (nf : String → String) (text : String) :
    ((text = "" ∨ (cleanedCore (nf text)).length ≤ 3) →
        normalize_text nf text = "Untitled") ∧
    (text ≠ "" → 3 < (cleanedCore (nf text)).length →
        normalize_text nf text = String.mk (cleanedCore (nf text)) ∧
        (∀ c ∈ (normalize_text nf text).toList, keepChar c = true) ∧
        noDoubleWs (normalize_text nf text).toList = true ∧
        noEdgeWs (normalize_text nf text).toList = true) := by
  constructor
  · rintro (h | h)
    · simp [normalize_text, h]
    · unfold normalize_text
      by_cases he : text = ""
      · simp [he]
      · rw [if_neg he]
        have h2 : ¬ 3 < (cleanedCore (nf text)).length := by omega
        simp [h2]
  · intro he hlen
    have heq : normalize_text nf text = String.mk (cleanedCore (nf text)) := by
      unfold normalize_text
      rw [if_neg he, if_pos hlen]
    refine ⟨heq, ?_, ?_, ?_⟩ <;> rw [heq]
    · exact cleanedCore_all_keep (nf text)
    · exact noDoubleWs_cleanedCore (nf text)
    · exact noEdgeWs_cleanedCore (nf text)

/-- Witness for `normalize_text_spec` at a concrete input. -/
theorem normalize_text_spec_witness :
    normalize_text nfkdModel "  Hello,   World!!  " = "Hello, World" ∧
    noDoubleWs (normalize_text nfkdModel "  Hello,   World!!  ").toList = true ∧
    noEdgeWs (normalize_text nfkdModel "  Hello,   World!!  ").toList = true := by
  have h := (normalize_text_spec nfkdModel "  Hello,   World!!  ").2
    (by decide) (by decide)
  refine ⟨?_, h.2.2.1, h.2.2.2⟩
  rw [h.1]
  decide

/-! ### Claim C10: the normalizer's first step -/

/-- C10 (amended): the normalizer is exactly the subsequent cleaning steps
(strip, character strip, whitespace collapse, trim, short-result fallback)
applied to the Unicode-normalized input, for empty input the fallback.  In
the source the normalization is NFKD — compatibility decomposition, with no
recomposition — not canonical decomposition/recomposition (NFC). -/
theorem normalize_first_step_spec (nf : String → String) (text : String) :
    normalize_text nf text = if text = "" then "Untitled" else cleanSteps (nf text) := rfl

/-- C10 counterexample: with canonical decomposition/recomposition (NFC,
`nfcModel`) in place of the source's NFKD, the cleaning steps give a
different result on `"Café"` (precomposed U+00E9): the code's NFKD path
decomposes the accent and the cleaning drops the combining mark, while NFC
keeps the precomposed letter. -/
theorem normalize_nfc_cex :
    normalize_text nfkdModel cafeStr ≠ cleanSteps (nfcModel cafeStr) ∧
    normalize_text nfkdModel cafeStr = "Cafe" ∧
    cleanSteps (nfcModel cafeStr) = cafeStr := by
  refine ⟨?_, by decide, by decide⟩
  decide

/-! ### Claim C9: trimming in the sanitizer -/

/-- C9 (amended): when the input is longer than `MAX_FILENAME_LENGTH`, the
result of `sanitize_filename` is trimmed — no leading and no trailing
whitespace.  (Short inputs are returned with invalid characters replaced
but untrimmed; see the counterexample.) -/
theorem sanitize_trim_spec (title : String) (h : MAX_FILENAME_LENGTH < title.length) :
    noEdgeWs (sanitize_filename title).toList = true := by
  unfold sanitize_filename
  have hlen : MAX_FILENAME_LENGTH < (title.toList.map replaceInvalid).length := by
    rw [List.length_map]
    exact h
  rw [if_pos hlen]
  exact noEdgeWs_pyStrip _

/-- Witness for `sanitize_trim_spec` at a concrete 101-character input. -/
theorem sanitize_trim_spec_witness :
    noEdgeWs (sanitize_filename
      (String.mk (List.replicate 50 'a' ++ ' ' :: List.replicate 50 'b'))).toList = true :=
  sanitize_trim_spec _ (by decide)

/-- C9 counterexample: the short input `" a"` is returned unchanged, with
its leading whitespace — the result is not trimmed. -/
theorem sanitize_trim_cex :
    sanitize_filename " a" = " a" ∧
    noEdgeWs (sanitize_filename " a").toList = false := by
  constructor <;> decide

/-! ### Claim C4: length bound and word-boundary truncation -/

theorem buildLoop_length (m : Nat) :
    ∀ (ws : List (List Char)) (acc : List Char), acc.length ≤ m →
      (buildLoop m ws acc).length ≤ m := by
  intro ws
  induction ws with
  | nil => intro acc h; exact h
  | cons w rest ih =>
    intro acc h
    unfold buildLoop
    by_cases hfit : acc.length + w.length + 1 ≤ m
    · rw [if_pos hfit]
      refine ih _ ?_
      simp only [List.length_append, List.length_cons, List.length_nil]
      omega
    · rw [if_neg hfit]
      exact h

theorem buildLoop_take (m : Nat) :
    ∀ (ws : List (List Char)) (acc : List Char),
      ∃ k, buildLoop m ws acc = acc ++ joinTrail (ws.take k) := by
  intro ws
  induction ws with
  | nil =>
    intro acc
    exact ⟨0, by simp [buildLoop, joinTrail]⟩
  | cons w rest ih =>
    intro acc
    unfold buildLoop
    by_cases hfit : acc.length + w.length + 1 ≤ m
    · rw [if_pos hfit]
      obtain ⟨k, hk⟩ := ih (acc ++ w ++ [' '])
      refine ⟨k + 1, ?_⟩
      rw [hk, List.take_succ_cons]
      show acc ++ w ++ [' '] ++ joinTrail (rest.take k) =
        acc ++ (w ++ ' ' :: joinTrail (rest.take k))
      simp [List.append_assoc]
    · rw [if_neg hfit]
      exact ⟨0, by simp [joinTrail]⟩

theorem pySplitAux_good :
    ∀ (l acc : List Char), (∀ c ∈ acc, isWs c = false) →
      ∀ w ∈ pySplitAux l acc, w ≠ [] ∧ ∀ c ∈ w, isWs c = false := by
  intro l
  induction l with
  | nil =>
    intro acc hacc w hw
    unfold pySplitAux at hw
    by_cases ha : acc = []
    · simp [ha] at hw
    · rw [if_neg ha] at hw
      simp only [List.mem_singleton] at hw
      subst hw
      refine ⟨by simpa using ha, ?_⟩
      intro c hc
      exact hacc c (List.mem_reverse.mp hc)
  | cons a t ih =>
    intro acc hacc w hw
    unfold pySplitAux at hw
    by_cases hws : isWs a
    · rw [if_pos (by simpa using hws)] at hw
      by_cases ha : acc = []
      · rw [if_pos ha] at hw
        exact ih [] (by intro c hc; cases hc) w hw
      · rw [if_neg ha] at hw
        rcases List.mem_cons.mp hw with h | h
        · subst h
          refine ⟨by simpa using ha, ?_⟩
          intro c hc
          exact hacc c (List.mem_reverse.mp hc)
        · exact ih [] (by intro c hc; cases hc) w h
    · rw [if_neg (by simpa using hws)] at hw
      refine ih (a :: acc) ?_ w hw
      intro c hc
      rcases List.mem_cons.mp hc with h | h
      · subst h
        exact Bool.eq_false_iff.mpr hws
      · exact hacc c h

theorem joinTrail_eq_joinSp :
    ∀ (ws : List (List Char)), ws ≠ [] → joinTrail ws = joinSp ws ++ [' '] := by
  intro ws
  induction ws with
  | nil => intro h; exact absurd rfl h
  | cons w rest ih =>
    intro _
    cases rest with
    | nil => simp [joinTrail, joinSp]
    | cons v vs =>
      have h2 : joinTrail (v :: vs) = joinSp (v :: vs) ++ [' '] := ih (by simp)
      show w ++ ' ' :: joinTrail (v :: vs) = (w ++ ' ' :: joinSp (v :: vs)) ++ [' ']
      rw [h2]
      simp [List.append_assoc]

theorem joinSp_ne_nil {w : List Char} {ws : List (List Char)} (hw : w ≠ []) :
    joinSp (w :: ws) ≠ [] := by
  cases ws with
  | nil => simpa [joinSp] using hw
  | cons v vs =>
    show w ++ ' ' :: joinSp (v :: vs) ≠ []
    intro h
    exact List.cons_ne_nil _ _ (List.append_eq_nil.mp h).2

theorem joinSp_head :
    ∀ (ws : List (List Char)), (∀ w ∈ ws, w ≠ [] ∧ ∀ c ∈ w, isWs c = false) →
      ∀ {c}, (joinSp ws).head? = some c → isWs c = false := by
  intro ws
  induction ws with
  | nil => intro _ c hc; simp [joinSp] at hc
  | cons w rest _ =>
    intro hgood c hc
    have hw := hgood w (List.mem_cons_self _ _)
    obtain ⟨x, t, rfl⟩ := List.exists_cons_of_ne_nil hw.1
    cases rest with
    | nil =>
      have hx : x = c := by simpa [joinSp] using hc
      exact hx ▸ hw.2 x (List.mem_cons_self _ _)
    | cons v vs =>
      have hx : x = c := by
        have hc' : ((x :: t) ++ ' ' :: joinSp (v :: vs)).head? = some c := hc
        simpa using hc'
      exact hx ▸ hw.2 x (List.mem_cons_self _ _)

theorem joinSp_getLast :
    ∀ (ws : List (List Char)), (∀ w ∈ ws, w ≠ [] ∧ ∀ c ∈ w, isWs c = false) →
      ∀ {c}, (joinSp ws).getLast? = some c → isWs c = false := by
  intro ws
  induction ws with
  | nil => intro _ c hc; simp [joinSp] at hc
  | cons w rest ih =>
    intro hgood c hc
    have hw := hgood w (List.mem_cons_self _ _)
    cases rest with
    | nil =>
      have h2 : w.getLast? = some c := by simpa [joinSp] using hc
      exact hw.2 c (List.mem_of_mem_getLast? h2)
    | cons v vs =>
      have hv := hgood v (by simp)
      have hne : joinSp (v :: vs) ≠ [] := joinSp_ne_nil hv.1
      have hgood' : ∀ u ∈ v :: vs, u ≠ [] ∧ ∀ d ∈ u, isWs d = false := by
        intro u hu
        exact hgood u (List.mem_cons_of_mem _ hu)
      refine ih hgood' ?_
      have hc' : (w ++ ' ' :: joinSp (v :: vs)).getLast? = some c := hc
      rw [List.getLast?_append] at hc'
      obtain ⟨j, js, hJ⟩ := List.exists_cons_of_ne_nil hne
      rw [hJ, List.getLast?_cons_cons] at hc'
      cases hjl : (j :: js).getLast? with
      | none =>
        rw [List.getLast?_eq_none_iff] at hjl
        exact absurd hjl (by simp)
      | some d =>
        rw [hjl] at hc'
        simp at hc'
        rw [hJ, hjl, hc']

theorem pyStrip_joinTrail (ws : List (List Char))
    (hgood : ∀ w ∈ ws, w ≠ [] ∧ ∀ c ∈ w, isWs c = false) :
    pyStrip (joinTrail ws) = joinSp ws := by
  cases ws with
  | nil => rfl
  | cons w rest =>
    rw [joinTrail_eq_joinSp _ (by simp)]
    have hw := hgood w (List.mem_cons_self _ _)
    obtain ⟨x, t, hx⟩ := List.exists_cons_of_ne_nil hw.1
    have hhead : (joinSp (w :: rest)).head? = some x := by
      cases rest with
      | nil => rw [show joinSp [w] = w from rfl, hx]; rfl
      | cons v vs =>
        rw [show joinSp (w :: v :: vs) = w ++ ' ' :: joinSp (v :: vs) from rfl, hx]
        rfl
    have hhx : isWs x = false := joinSp_head _ hgood hhead
    have hne : joinSp (w :: rest) ≠ [] := joinSp_ne_nil hw.1
    obtain ⟨j, js, hJ⟩ := List.exists_cons_of_ne_nil hne
    have hlast : ∃ d, (joinSp (w :: rest)).getLast? = some d := by
      rw [hJ]
      cases hg : (j :: js).getLast? with
      | none =>
        rw [List.getLast?_eq_none_iff] at hg
        exact absurd hg (by simp)
      | some d => exact ⟨d, rfl⟩
    obtain ⟨d, hd⟩ := hlast
    have hdws : isWs d = false := joinSp_getLast _ hgood hd
    unfold pyStrip
    have s1 : (joinSp (w :: rest) ++ [' ']).dropWhile isWs = joinSp (w :: rest) ++ [' '] := by
      refine dropWhile_eq_self_of_head isWs _ ?_ hhx
      rw [List.head?_append, hhead]
      rfl
    rw [s1, List.reverse_append]
    show ((' ' :: (joinSp (w :: rest)).reverse).dropWhile isWs).reverse = _
    rw [List.dropWhile_cons, if_pos (by simp [isWs])]
    have s2 : (joinSp (w :: rest)).reverse.dropWhile isWs = (joinSp (w :: rest)).reverse := by
      refine dropWhile_eq_self_of_head isWs _ ?_ hdws
      rw [List.head?_reverse]
      exact hd
    rw [s2, List.reverse_reverse]

/-- C4: the sanitizer's output never exceeds `MAX_FILENAME_LENGTH`
characters, and when the input is longer than that, the output is a
concatenation of whole leading words of the (invalid-character-replaced)
input separated by single spaces — it never ends mid-word. -/
theorem sanitize_filename_spec (title : String) :
    (sanitize_filename title).length ≤ MAX_FILENAME_LENGTH ∧
    (MAX_FILENAME_LENGTH < title.length →
      ∃ k, sanitize_filename title =
        String.mk (joinSp ((pySplit (title.toList.map replaceInvalid)).take k))) := by
  have hlen_eq : (title.toList.map replaceInvalid).length = title.length := by
    rw [List.length_map]
    rfl
  constructor
  · unfold sanitize_filename
    by_cases hbig : MAX_FILENAME_LENGTH < (title.toList.map replaceInvalid).length
    · rw [if_pos hbig]
      show (pyStrip (buildLoop MAX_FILENAME_LENGTH (pySplit _) [])).length ≤ _
      calc (pyStrip (buildLoop MAX_FILENAME_LENGTH (pySplit _) [])).length
          ≤ (buildLoop MAX_FILENAME_LENGTH (pySplit _) []).length := pyStrip_length_le _
        _ ≤ MAX_FILENAME_LENGTH := buildLoop_length _ _ [] (by simp)
    · rw [if_neg hbig]
      show (title.toList.map replaceInvalid).length ≤ _
      omega
  · intro hbig
    unfold sanitize_filename
    rw [if_pos (by omega)]
    obtain ⟨k, hk⟩ :=
      buildLoop_take MAX_FILENAME_LENGTH (pySplit (title.toList.map replaceInvalid)) []
    refine ⟨k, ?_⟩
    rw [hk]
    simp only [List.nil_append]
    congr 1
    refine pyStrip_joinTrail _ ?_
    intro w hw
    exact pySplitAux_good _ [] (by intro c hc; cases hc) w (List.mem_of_mem_take hw)

/-- Witness for `sanitize_filename_spec` at a concrete 101-character
input. -/
theorem sanitize_filename_spec_witness :
    (sanitize_filename
        (String.mk (List.replicate 50 'a' ++ ' ' :: List.replicate 50 'b'))).length
      ≤ MAX_FILENAME_LENGTH ∧
    ∃ k, sanitize_filename
        (String.mk (List.replicate 50 'a' ++ ' ' :: List.replicate 50 'b')) =
      String.mk (joinSp ((pySplit
        ((String.mk (List.replicate 50 'a' ++ ' ' :: List.replicate 50 'b')).toList.map
          replaceInvalid)).take k)) :=
  ⟨(sanitize_filename_spec _).1, (sanitize_filename_spec _).2 (by decide)⟩

/-! ### Claim C7: the metadata extractor -/

/-- C7: the metadata extractor returns no title exactly when the field is
absent or empty, when the raw field contains a denylisted phrase
case-insensitively, or when the read fails (exceptions are modelled by
`metaRead = none`; the function is total, so nothing propagates); in every
other case it returns the normalized raw title.  In particular a metadata
title `"Paper Title"` is always rejected. -/
theorem metadata_extractor_spec (nf : String → String) (f : PdfFile) :
    (get_pdf_title_metadata nf f = none ↔
      (f.metaRead = none ∨ f.metaRead = some none ∨ f.metaRead = some (some "") ∨
        ∃ t, f.metaRead = some (some t) ∧ phraseHit t = true)) ∧
    (∀ t, f.metaRead = some (some t) → t ≠ "" → phraseHit t = false →
      get_pdf_title_metadata nf f = some (normalize_text nf t)) ∧
    (f.metaRead = some (some "Paper Title") → get_pdf_title_metadata nf f = none) := by
  obtain ⟨d, n, m, p⟩ := f
  cases m with
  | none =>
    refine ⟨?_, ?_, ?_⟩
    · simp [get_pdf_title_metadata]
    · intro t ht
      cases ht
    · intro ht
      cases ht
  | some m =>
    cases m with
    | none =>
      refine ⟨?_, ?_, ?_⟩
      · simp [get_pdf_title_metadata]
      · intro t ht
        cases ht
      · intro ht
        cases ht
    | some t =>
      refine ⟨?_, ?_, ?_⟩
      · by_cases ht : t = ""
        · subst ht
          simp [get_pdf_title_metadata]
        · by_cases hp : phraseHit t = true
          · simp only [get_pdf_title_metadata, ht, hp]
            simp [ht, hp]
          · simp only [get_pdf_title_metadata]
            simp [ht, hp]
      · intro u hu hne hp
        injection hu with hu
        injection hu with hu
        subst hu
        simp [get_pdf_title_metadata, hne, hp]
      · intro ht
        injection ht with ht
        injection ht with ht
        subst ht
        simp [get_pdf_title_metadata]
        decide

/-- Witness for `metadata_extractor_spec`: a file whose metadata title is
`"Paper Title"` is never named from its metadata. -/
theorem metadata_extractor_spec_witness :
    get_pdf_title_metadata nfkdModel ⟨"d", "y.pdf", some (some "Paper Title"), none⟩ = none :=
  (metadata_extractor_spec nfkdModel _).2.2 rfl

/-! ### Claim C6: short lines poison the text extractor -/

theorem findSome?_scanLines (g : String → Option String) :
    ∀ (ps : List String),
      ps.findSome?
          (fun text => if text = "" then none else (splitNl text).findSome? g)
        = (ps.foldr
            (fun text acc => (if text = "" then [] else splitNl text) ++ acc)
            []).findSome? g := by
  intro ps
  induction ps with
  | nil => rfl
  | cons t ps ih =>
    rw [List.findSome?_cons, List.foldr_cons, List.findSome?_append]
    by_cases ht : t = ""
    · simp only [ht, if_pos rfl, if_true]
      simp [ih]
    · rw [if_neg ht, if_neg ht]
      cases hfs : ((splitNl t).findSome? g) with
      | none => simp [ih]
      | some v => simp

theorem get_pdf_title_text_scan (nf : String → String) (f : PdfFile)
    (pages : List String) (hpages : f.pages = some pages) :
    get_pdf_title_text nf f = (scanLines pages).findSome? (acceptTextLine nf) := by
  unfold get_pdf_title_text
  rw [hpages]
  unfold scanLines
  exact findSome?_scanLines (acceptTextLine nf) (pages.take 3)

/-- C6: if the scanned page lines contain — before any line that would
otherwise be accepted — a non-empty line whose cleaned form has at most 3
characters, then `get_pdf_title_text` returns the literal fallback
`"Untitled"` (the normalizer maps the line to `"Untitled"`, whose length 8
passes the `> 4`/four-digit acceptance test); when the metadata extractor
yielded nothing, the selector accepts this non-empty result without trying
the remaining extractors or the stem, and `rename_pdf` leaves the file
unrenamed, with the collision table untouched. -/
theorem untitled_line_spec (nf : String → String) (f : PdfFile) (tbl : Table)
    (pages pre post : List String) (line : String)
    (hpages : f.pages = some pages)
    (hscan : scanLines pages = pre ++ line :: post)
    (hpre : ∀ l ∈ pre, acceptTextLine nf l = none)
    (hline : line ≠ "")
    (hshort : (cleanedCore (nf line)).length ≤ 3)
    (hmeta : truthy (get_pdf_title_metadata nf f) = none) :
    get_pdf_title_text nf f = some "Untitled" ∧
    extract_best_title nf f = "Untitled" ∧
    rename_pdf nf f tbl = (f.path, tbl) := by
  have hnorm : normalize_text nf line = "Untitled" := by
    unfold normalize_text
    rw [if_neg hline, if_neg (by omega)]
  have haccept : acceptTextLine nf line = some "Untitled" := by
    unfold acceptTextLine
    rw [hnorm]
    decide
  have htext : get_pdf_title_text nf f = some "Untitled" := by
    rw [get_pdf_title_text_scan nf f pages hpages, hscan, List.findSome?_append,
      List.findSome?_eq_none_iff.mpr hpre, List.findSome?_cons, haccept]
    rfl
  have hextract : extract_best_title nf f = "Untitled" := by
    unfold extract_best_title
    rw [hmeta, htext]
    rfl
  refine ⟨htext, hextract, ?_⟩
  unfold rename_pdf
  rw [hextract]
  dsimp only
  have hsan : sanitize_filename "Untitled" = "Untitled" := by decide
  rw [hsan]
  rw [if_pos (by decide)]

/-- Witness for `untitled_line_spec`: a first page whose first line is the
short `"ab"` hides the real title on the next line; the file is left
unrenamed. -/
theorem untitled_line_spec_witness :
    get_pdf_title_text nfkdModel
        ⟨"d", "x.pdf", some none, some ["ab\nA Real Paper Name Here"]⟩
      = some "Untitled" ∧
    extract_best_title nfkdModel
        ⟨"d", "x.pdf", some none, some ["ab\nA Real Paper Name Here"]⟩
      = "Untitled" ∧
    rename_pdf nfkdModel
        ⟨"d", "x.pdf", some none, some ["ab\nA Real Paper Name Here"]⟩ []
      = (⟨"d", "x.pdf"⟩, []) :=
  untitled_line_spec nfkdModel _ [] ["ab\nA Real Paper Name Here"] []
    ["A Real Paper Name Here"] "ab" rfl (by decide) (by intro l hl; cases hl)
    (by decide) (by decide) (by decide)

/-! ### Claim C2: extractor priority and the stem fallback -/

/-- C2 (amended): `extract_best_title` returns the metadata extractor's
result when truthy (non-`None`, non-empty); otherwise the text extractor's
truthy result; otherwise the regex extractor's truthy result; otherwise the
stem.  When all three extractors yield nothing, the computed new name is
`"<stem>.pdf"` provided the stem is unchanged by sanitization, the file
name is exactly the stem plus `".pdf"`, and the collision table has no
entry for `"<stem>.pdf"` — in general sanitization or a collision suffix
changes the computed name (see the counterexample). -/
theorem extract_priority_spec (nf : String → String) (f : PdfFile) (tbl : Table)
    (hsan : sanitize_filename (pathStem f.name) = pathStem f.name)
    (htbl : tblGet tbl (pathStem f.name ++ ".pdf") = 0)
    (hname : f.name = pathStem f.name ++ ".pdf") :
    (∀ t, truthy (get_pdf_title_metadata nf f) = some t →
        extract_best_title nf f = t) ∧
    (truthy (get_pdf_title_metadata nf f) = none →
      ∀ t, truthy (get_pdf_title_text nf f) = some t →
        extract_best_title nf f = t) ∧
    (truthy (get_pdf_title_metadata nf f) = none →
      truthy (get_pdf_title_text nf f) = none →
      ∀ t, truthy (get_pdf_title_using_regex nf f) = some t →
        extract_best_title nf f = t) ∧
    (chainTitle nf f = none →
      extract_best_title nf f = pathStem f.name ∧
      (rename_pdf nf f tbl).1.name = pathStem f.name ++ ".pdf") := by
  refine ⟨?_, ?_, ?_, ?_⟩
  · intro t ht
    unfold extract_best_title
    rw [ht]
  · intro hm t ht
    unfold extract_best_title
    rw [hm, ht]
  · intro hm htx t ht
    unfold extract_best_title
    rw [hm, htx, ht]
  · intro hchain
    unfold chainTitle at hchain
    rw [Option.or_eq_none] at hchain
    obtain ⟨hm, hrest⟩ := hchain
    rw [Option.or_eq_none] at hrest
    obtain ⟨htx, hrx⟩ := hrest
    have hext : extract_best_title nf f = pathStem f.name := by
      unfold extract_best_title
      rw [hm, htx, hrx]
    refine ⟨hext, ?_⟩
    unfold rename_pdf
    rw [hext]
    dsimp only
    rw [hsan]
    by_cases hskip :
        (decide (pathStem f.name = "") || decide (pyLower (pathStem f.name) = "untitled"))
          = true
    · rw [if_pos hskip]
      show f.name = _
      exact hname
    · rw [if_neg hskip, htbl]
      rw [if_neg (by omega)]

/-- C2 counterexample: all extractors fail, the title falls back to the stem
`"a<bcd"`, but sanitization replaces the `<`, so the computed new name is
`"a_bcd.pdf"`, not `"<original-stem>.pdf"`. -/
theorem extract_priority_cex :
    extract_best_title nfkdModel ⟨"d", "a<bcd.pdf", some (some ""), some []⟩
        = pathStem "a<bcd.pdf" ∧
    (rename_pdf nfkdModel ⟨"d", "a<bcd.pdf", some (some ""), some []⟩ []).1.name
        ≠ pathStem "a<bcd.pdf" ++ ".pdf" ∧
    (rename_pdf nfkdModel ⟨"d", "a<bcd.pdf", some (some ""), some []⟩ []).1.name
        = "a_bcd.pdf" :=
  ⟨by decide, by decide, by decide⟩

/-- Witness for `extract_priority_spec`: a file with no extractable title
gets the computed name `"doc.pdf"`, its own. -/
theorem extract_priority_spec_witness :
    extract_best_title nfkdModel ⟨"d", "doc.pdf", some none, some []⟩ = "doc" ∧
    (rename_pdf nfkdModel ⟨"d", "doc.pdf", some none, some []⟩ []).1.name = "doc.pdf" := by
  have h := (extract_priority_spec nfkdModel ⟨"d", "doc.pdf", some none, some []⟩ []
    (by decide) (by decide) (by decide)).2.2.2 (by decide)
  refine ⟨?_, ?_⟩
  · rw [h.1]
    decide
  · rw [h.2]
    decide

/-! ### Claim C8: the missing directory is the only fatal condition -/

theorem processOne_log (nf : String → String) (ok : FsPath → FsPath → Bool)
    (st : Fs × Table × List Event) (p : FsPath) :
    ∃ e, (processOne nf ok st p).2.2 = st.2.2 ++ [e] ∧ e ≠ Event.errorMissingDir := by
  unfold processOne
  dsimp only
  cases hf : findFile st.1 p with
  | none =>
    exact ⟨Event.warnMissing p, rfl, fun h => Event.noConfusion h⟩
  | some pdf =>
    dsimp only
    by_cases hc : (rename_pdf nf pdf st.2.1).1 ≠ p ∧
        fsExists st.1 (rename_pdf nf pdf st.2.1).1 = false
    · rw [if_pos hc]
      by_cases hok : ok p (rename_pdf nf pdf st.2.1).1
      · rw [if_pos hok]
        exact ⟨Event.renamed p (rename_pdf nf pdf st.2.1).1, rfl, fun h => Event.noConfusion h⟩
      · rw [if_neg hok]
        exact ⟨Event.renameFailed p (rename_pdf nf pdf st.2.1).1, rfl,
          fun h => Event.noConfusion h⟩
    · rw [if_neg hc]
      exact ⟨Event.skipped p (rename_pdf nf pdf st.2.1).1, rfl, fun h => Event.noConfusion h⟩

theorem foldl_processOne_log (nf : String → String) (ok : FsPath → FsPath → Bool) :
    ∀ (ps : List FsPath) (st : Fs × Table × List Event),
      ((ps.foldl (processOne nf ok) st).2.2).length = st.2.2.length + ps.length ∧
      ∀ e ∈ (ps.foldl (processOne nf ok) st).2.2,
        e ∈ st.2.2 ∨ e ≠ Event.errorMissingDir := by
  intro ps
  induction ps with
  | nil =>
    intro st
    exact ⟨by simp, fun e he => Or.inl he⟩
  | cons p ps ih =>
    intro st
    rw [List.foldl_cons]
    obtain ⟨e, he, hene⟩ := processOne_log nf ok st p
    obtain ⟨ihlen, ihmem⟩ := ih (processOne nf ok st p)
    constructor
    · rw [ihlen, he]
      simp
      omega
    · intro x hx
      rcases ihmem x hx with h | h
      · rw [he] at h
        rcases List.mem_append.mp h with h' | h'
        · exact Or.inl h'
        · rw [List.mem_singleton] at h'
          subst h'
          exact Or.inr hene
      · exact Or.inr h

/-- C8: a missing target directory yields exactly one error event and an
unchanged filesystem — no enumeration, no renames — and is the only early
end of a run: when the directory exists, every enumerated file produces
exactly one event (renamed, skipped, rename-failure or missing-file
warning, never the fatal error), whatever the rename oracle does, so
processing always reaches the end of the snapshot. -/
theorem missing_dir_spec (nf : String → String) (ok : FsPath → FsPath → Bool)
    (fs : Fs) (rootExists : Bool) :
    (rootExists = false →
      rename_pdfs_in_directory nf ok rootExists fs = (fs, [Event.errorMissingDir])) ∧
    (rootExists = true →
      (rename_pdfs_in_directory nf ok rootExists fs).2.length = (enumerate fs).length ∧
      Event.errorMissingDir ∉ (rename_pdfs_in_directory nf ok rootExists fs).2) := by
  constructor
  · intro h
    subst h
    rfl
  · intro h
    subst h
    unfold rename_pdfs_in_directory
    rw [if_neg (by simp)]
    dsimp only
    obtain ⟨hlen, hmem⟩ := foldl_processOne_log nf ok (enumerate fs) (fs, [], [])
    refine ⟨by simpa using hlen, ?_⟩
    intro hbad
    rcases hmem _ hbad with h | h
    · cases h
    · exact h rfl

/-- Witness for `missing_dir_spec` on a one-file filesystem. -/
theorem missing_dir_spec_witness :
    rename_pdfs_in_directory nfkdModel alwaysOk false [⟨"d", "t.pdf", some none, some []⟩]
        = ([⟨"d", "t.pdf", some none, some []⟩], [Event.errorMissingDir]) ∧
    (rename_pdfs_in_directory nfkdModel alwaysOk true
        [⟨"d", "t.pdf", some none, some []⟩]).2.length
      = (enumerate [⟨"d", "t.pdf", some none, some []⟩]).length :=
  ⟨(missing_dir_spec nfkdModel alwaysOk [⟨"d", "t.pdf", some none, some []⟩] false).1 rfl,
   ((missing_dir_spec nfkdModel alwaysOk [⟨"d", "t.pdf", some none, some []⟩] true).2 rfl).1⟩

/-! ### Claim C1: the collision-suffix scheme -/

theorem decDigits_eq_digits :
    ∀ (fuel n : Nat), n ≤ fuel → decDigits fuel n = Nat.digits 10 n := by
  intro fuel
  induction fuel with
  | zero =>
    intro n hn
    have hz : n = 0 := by omega
    subst hz
    simp [decDigits]
  | succ fuel ih =>
    intro n hn
    cases n with
    | zero => simp [decDigits]
    | succ m =>
      have hdiv : (m + 1) / 10 ≤ fuel := by
        have := Nat.div_lt_self (Nat.succ_pos m) (by norm_num : 1 < 10)
        omega
      rw [Nat.digits_def' (by norm_num : (1:ℕ) < 10) (Nat.succ_pos m)]
      show (m + 1) % 10 :: decDigits fuel ((m + 1) / 10)
        = (m + 1) % 10 :: Nat.digits 10 ((m + 1) / 10)
      rw [ih _ hdiv]

theorem digitChar_inj_lt10 :
    ∀ d1, d1 < 10 → ∀ d2, d2 < 10 → Nat.digitChar d1 = Nat.digitChar d2 → d1 = d2 := by
  decide

theorem map_digitChar_inj :
    ∀ (l1 l2 : List Nat), (∀ d ∈ l1, d < 10) → (∀ d ∈ l2, d < 10) →
      l1.map Nat.digitChar = l2.map Nat.digitChar → l1 = l2 := by
  intro l1
  induction l1 with
  | nil =>
    intro l2 _ _ h
    cases l2 with
    | nil => rfl
    | cons b u => simp at h
  | cons a t ih =>
    intro l2 h1 h2 h
    cases l2 with
    | nil => simp at h
    | cons b u =>
      simp only [List.map_cons, List.cons.injEq] at h
      have ha : a = b :=
        digitChar_inj_lt10 a (h1 a (List.mem_cons_self _ _)) b (h2 b (List.mem_cons_self _ _))
          h.1
      rw [ha, ih u (fun d hd => h1 d (List.mem_cons_of_mem _ hd))
        (fun d hd => h2 d (List.mem_cons_of_mem _ hd)) h.2]

theorem string_ext {a b : String} (h : a.data = b.data) : a = b := by
  cases a
  cases b
  exact congrArg String.mk h

theorem decRepr_digits (n : Nat) (hn : n ≠ 0) :
    decRepr n = String.mk ((Nat.digits 10 n).reverse.map Nat.digitChar) := by
  unfold decRepr
  rw [if_neg hn, decDigits_eq_digits n n (le_refl n)]

theorem decRepr_inj : ∀ {m n : Nat}, decRepr m = decRepr n → m = n := by
  intro m n h
  by_cases hm : m = 0 <;> by_cases hn : n = 0
  · omega
  · exfalso
    subst hm
    rw [show decRepr 0 = "0" from rfl, decRepr_digits n hn] at h
    have hd : ['0'] = (Nat.digits 10 n).reverse.map Nat.digitChar := congrArg String.data h
    have hlen : (1 : Nat) = (Nat.digits 10 n).length := by
      have := congrArg List.length hd
      simpa using this
    obtain ⟨d, hdig⟩ := List.length_eq_one.mp hlen.symm
    rw [hdig] at hd
    simp only [List.reverse_singleton, List.map_cons, List.map_nil, List.cons.injEq] at hd
    have hd10 : d < 10 :=
      Nat.digits_lt_base (by norm_num) (by rw [hdig]; exact List.mem_cons_self _ _)
    have hd0 : d = 0 := digitChar_inj_lt10 d hd10 0 (by norm_num) hd.1.symm
    have : n = 0 := by
      have hofd := Nat.ofDigits_digits 10 n
      rw [hdig, hd0] at hofd
      simpa [Nat.ofDigits] using hofd.symm
    exact hn this
  · exfalso
    subst hn
    rw [show decRepr 0 = "0" from rfl, decRepr_digits m hm] at h
    have hd : (Nat.digits 10 m).reverse.map Nat.digitChar = ['0'] := congrArg String.data h
    have hlen : (Nat.digits 10 m).length = 1 := by
      have := congrArg List.length hd
      simpa using this
    obtain ⟨d, hdig⟩ := List.length_eq_one.mp hlen
    rw [hdig] at hd
    simp only [List.reverse_singleton, List.map_cons, List.map_nil, List.cons.injEq] at hd
    have hd10 : d < 10 :=
      Nat.digits_lt_base (by norm_num) (by rw [hdig]; exact List.mem_cons_self _ _)
    have hd0 : d = 0 := digitChar_inj_lt10 d hd10 0 (by norm_num) hd.1
    have : m = 0 := by
      have hofd := Nat.ofDigits_digits 10 m
      rw [hdig, hd0] at hofd
      simpa [Nat.ofDigits] using hofd.symm
    exact hm this
  · rw [decRepr_digits m hm, decRepr_digits n hn] at h
    have hd := congrArg String.data h
    simp only [List.map_reverse] at hd
    have hd2 := List.reverse_injective
      (by simpa using hd : ((Nat.digits 10 m).map Nat.digitChar).reverse
        = ((Nat.digits 10 n).map Nat.digitChar).reverse)
    have hdig := map_digitChar_inj _ _
      (fun d hdm => Nat.digits_lt_base (by norm_num) hdm)
      (fun d hdn => Nat.digits_lt_base (by norm_num) hdn) hd2
    exact Nat.digits_inj_iff.mp hdig

theorem append_left_cancel' {a b c : String} (h : a ++ b = a ++ c) : b = c := by
  have hd := congrArg String.data h
  rw [String.data_append, String.data_append] at hd
  exact string_ext (List.append_cancel_left hd)

theorem append_right_cancel' {a b c : String} (h : a ++ c = b ++ c) : a = b := by
  have hd := congrArg String.data h
  rw [String.data_append, String.data_append] at hd
  exact string_ext (List.append_cancel_right hd)

theorem expectedName_inj (t : String) :
    ∀ {j k : Nat}, expectedName t j = expectedName t k → j = k := by
  intro j k h
  unfold expectedName at h
  by_cases hj : j = 0 <;> by_cases hk : k = 0
  · omega
  · exfalso
    rw [if_pos hj, if_neg hk] at h
    have h2 : t = t ++ "_" ++ decRepr k := append_right_cancel' h
    have hl := congrArg String.length h2
    rw [String.length_append, String.length_append] at hl
    have h1 : ("_" : String).length = 1 := rfl
    omega
  · exfalso
    rw [if_neg hj, if_pos hk] at h
    have h2 : t ++ "_" ++ decRepr j = t := append_right_cancel' h
    have hl := congrArg String.length h2
    rw [String.length_append, String.length_append] at hl
    have h1 : ("_" : String).length = 1 := rfl
    omega
  · rw [if_neg hj, if_neg hk] at h
    have h2 : t ++ "_" ++ decRepr j = t ++ "_" ++ decRepr k := append_right_cancel' h
    exact decRepr_inj (append_left_cancel' h2)

theorem tblGet_set_eq (tbl : Table) (k : String) (v : Nat) :
    tblGet (tblSet tbl k v) k = v := by
  unfold tblGet tblSet
  simp

theorem tblGet_set_ne (tbl : Table) (k k' : String) (v : Nat) (h : k ≠ k') :
    tblGet (tblSet tbl k v) k' = tblGet tbl k' := by
  unfold tblGet tblSet
  rw [List.find?_cons_of_neg]
  simpa using h

theorem rename_pdf_hit (nf : String → String) (f : PdfFile) (tbl : Table) (t : String)
    (ht : sanitize_filename (extract_best_title nf f) = t)
    (hne : t ≠ "") (hnu : pyLower t ≠ "untitled") :
    (rename_pdf nf f tbl).1.name = expectedName t (tblGet tbl (t ++ ".pdf")) ∧
    (rename_pdf nf f tbl).1.dir = f.dir ∧
    (rename_pdf nf f tbl).2 = tblSet tbl (t ++ ".pdf") (tblGet tbl (t ++ ".pdf") + 1) := by
  unfold rename_pdf
  dsimp only
  rw [ht]
  rw [if_neg (by simp [hne, hnu])]
  by_cases hc : 0 < tblGet tbl (t ++ ".pdf")
  · rw [if_pos hc]
    refine ⟨?_, rfl, rfl⟩
    show t ++ "_" ++ decRepr (tblGet tbl (t ++ ".pdf")) ++ ".pdf" = _
    unfold expectedName
    rw [if_neg (by omega)]
  · rw [if_neg hc]
    refine ⟨?_, rfl, rfl⟩
    show t ++ ".pdf" = _
    unfold expectedName
    rw [if_pos (by omega)]

theorem rename_pdf_miss (nf : String → String) (f : PdfFile) (tbl : Table) (t : String)
    (ht : sanitize_filename (extract_best_title nf f) ≠ t) :
    tblGet (rename_pdf nf f tbl).2 (t ++ ".pdf") = tblGet tbl (t ++ ".pdf") := by
  unfold rename_pdf
  dsimp only
  by_cases hskip : (decide (sanitize_filename (extract_best_title nf f) = "")
      || decide (pyLower (sanitize_filename (extract_best_title nf f)) = "untitled")) = true
  · rw [if_pos hskip]
  · rw [if_neg hskip]
    have hkey : sanitize_filename (extract_best_title nf f) ++ ".pdf" ≠ t ++ ".pdf" := by
      intro h
      exact ht (append_right_cancel' h)
    by_cases hc : 0 < tblGet tbl (sanitize_filename (extract_best_title nf f) ++ ".pdf")
    · rw [if_pos hc]
      exact tblGet_set_ne _ _ _ _ hkey
    · rw [if_neg hc]
      exact tblGet_set_ne _ _ _ _ hkey

theorem renameSeq_collisions (nf : String → String) (t : String)
    (hne : t ≠ "") (hnu : pyLower t ≠ "untitled") :
    ∀ (pdfs : List PdfFile) (tbl : Table),
      tblGet (renameSeq nf pdfs tbl).2 (t ++ ".pdf")
        = tblGet tbl (t ++ ".pdf")
          + ((pdfs.filter fun f => sanitize_filename (extract_best_title nf f) == t).length) ∧
      (((pdfs.zip (renameSeq nf pdfs tbl).1).filter
            fun pr => sanitize_filename (extract_best_title nf pr.1) == t).map
          fun pr => pr.2.name)
        = (List.range' (tblGet tbl (t ++ ".pdf"))
            ((pdfs.filter fun f => sanitize_filename (extract_best_title nf f) == t).length)).map
            (expectedName t) := by
  intro pdfs
  induction pdfs with
  | nil =>
    intro tbl
    exact ⟨by simp [renameSeq], by simp [renameSeq]⟩
  | cons f rest ih =>
    intro tbl
    obtain ⟨ih1, ih2⟩ := ih (rename_pdf nf f tbl).2
    have hrs : renameSeq nf (f :: rest) tbl
        = ((rename_pdf nf f tbl).1 :: (renameSeq nf rest (rename_pdf nf f tbl).2).1,
           (renameSeq nf rest (rename_pdf nf f tbl).2).2) := rfl
    rw [hrs]
    by_cases hf : sanitize_filename (extract_best_title nf f) = t
    · have hhit := rename_pdf_hit nf f tbl t hf hne hnu
      have htbl2 : tblGet (rename_pdf nf f tbl).2 (t ++ ".pdf")
          = tblGet tbl (t ++ ".pdf") + 1 := by
        rw [hhit.2.2, tblGet_set_eq]
      have hPf : (sanitize_filename (extract_best_title nf f) == t) = true := by
        simpa using hf
      have hfc : ((f :: rest).filter fun g => sanitize_filename (extract_best_title nf g) == t)
          = f :: (rest.filter fun g => sanitize_filename (extract_best_title nf g) == t) := by
        simp [List.filter_cons, hPf]
      have hzc : (((f, (rename_pdf nf f tbl).1)
            :: rest.zip (renameSeq nf rest (rename_pdf nf f tbl).2).1).filter
            fun pr => sanitize_filename (extract_best_title nf pr.1) == t)
          = (f, (rename_pdf nf f tbl).1)
            :: ((rest.zip (renameSeq nf rest (rename_pdf nf f tbl).2).1).filter
              fun pr => sanitize_filename (extract_best_title nf pr.1) == t) := by
        simp [List.filter_cons, hPf]
      constructor
      · show tblGet (renameSeq nf rest (rename_pdf nf f tbl).2).2 _ = _
        rw [ih1, htbl2, hfc, List.length_cons]
        omega
      · rw [List.zip_cons_cons, hzc, List.map_cons, hfc, List.length_cons,
          List.range'_succ, List.map_cons]
        rw [ih2, htbl2, hhit.1]
    · have hmiss := rename_pdf_miss nf f tbl t hf
      have hPf : (sanitize_filename (extract_best_title nf f) == t) = false := by
        simpa using hf
      have hfc : ((f :: rest).filter fun g => sanitize_filename (extract_best_title nf g) == t)
          = (rest.filter fun g => sanitize_filename (extract_best_title nf g) == t) := by
        simp [List.filter_cons, hPf]
      have hzc : (((f, (rename_pdf nf f tbl).1)
            :: rest.zip (renameSeq nf rest (rename_pdf nf f tbl).2).1).filter
            fun pr => sanitize_filename (extract_best_title nf pr.1) == t)
          = ((rest.zip (renameSeq nf rest (rename_pdf nf f tbl).2).1).filter
              fun pr => sanitize_filename (extract_best_title nf pr.1) == t) := by
        simp [List.filter_cons, hPf]
      constructor
      · show tblGet (renameSeq nf rest (rename_pdf nf f tbl).2).2 _ = _
        rw [ih1, hmiss, hfc]
      · rw [List.zip_cons_cons, hzc, hfc]
        rw [ih2, hmiss]

/-- C1: across the orchestrator's sequence of `rename_pdf` calls (shared
collision table, enumeration order), the files resolving to a shared
sanitized base title `t` — with no other file having produced that base
name, i.e. the table entry for `t.pdf` starts at 0 — receive the bare name
`t.pdf` first and `t_k.pdf` for the k-th subsequent one, pairwise distinct;
the table entry for the un-suffixed base name ends at exactly the number of
such files, and every single call increments it by exactly 1, whether or
not a suffix was applied. -/
theorem rename_collision_spec (nf : String → String) (t : String)
    (pdfs : List PdfFile) (tbl : Table)
    (hne : t ≠ "") (hnu : pyLower t ≠ "untitled")
    (h0 : tblGet tbl (t ++ ".pdf") = 0) :
    (((pdfs.zip (renameSeq nf pdfs tbl).1).filter
          fun pr => sanitize_filename (extract_best_title nf pr.1) == t).map
        fun pr => pr.2.name)
      = (List.range
          ((pdfs.filter fun f => sanitize_filename (extract_best_title nf f) == t).length)).map
          (expectedName t) ∧
    ((((pdfs.zip (renameSeq nf pdfs tbl).1).filter
          fun pr => sanitize_filename (extract_best_title nf pr.1) == t).map
        fun pr => pr.2.name)).Nodup ∧
    tblGet (renameSeq nf pdfs tbl).2 (t ++ ".pdf")
      = ((pdfs.filter fun f => sanitize_filename (extract_best_title nf f) == t).length) ∧
    (∀ (f : PdfFile) (tbl2 : Table),
      sanitize_filename (extract_best_title nf f) = t →
      tblGet (rename_pdf nf f tbl2).2 (t ++ ".pdf") = tblGet tbl2 (t ++ ".pdf") + 1) := by
  obtain ⟨h1, h2⟩ := renameSeq_collisions nf t hne hnu pdfs tbl
  have hnames :
      (((pdfs.zip (renameSeq nf pdfs tbl).1).filter
            fun pr => sanitize_filename (extract_best_title nf pr.1) == t).map
          fun pr => pr.2.name)
        = (List.range
            ((pdfs.filter fun f =>
              sanitize_filename (extract_best_title nf f) == t).length)).map
            (expectedName t) := by
    rw [h2, h0, List.range_eq_range']
  refine ⟨hnames, ?_, by rw [h1, h0, Nat.zero_add], ?_⟩
  · rw [hnames]
    exact List.Nodup.map_on
      (fun x _ y _ hxy => expectedName_inj t hxy)
      (List.nodup_range _)
  · intro f tbl2 hf
    rw [(rename_pdf_hit nf f tbl2 t hf hne hnu).2.2, tblGet_set_eq]

/-- Witness for `rename_collision_spec`: two files in different directories
both titled `"Shared Name"` get `"Shared Name.pdf"` and
`"Shared Name_1.pdf"`, and the table entry ends at 2. -/
theorem rename_collision_spec_witness :
    ((([⟨"d1", "g.pdf", some (some "Shared Name"), some []⟩,
        ⟨"d2", "g.pdf", some (some "Shared Name"), some []⟩].zip
          (renameSeq nfkdModel
            [⟨"d1", "g.pdf", some (some "Shared Name"), some []⟩,
             ⟨"d2", "g.pdf", some (some "Shared Name"), some []⟩] []).1).filter
        fun pr => sanitize_filename (extract_best_title nfkdModel pr.1) == "Shared Name").map
      fun pr => pr.2.name) = ["Shared Name.pdf", "Shared Name_1.pdf"] ∧
    tblGet (renameSeq nfkdModel
        [⟨"d1", "g.pdf", some (some "Shared Name"), some []⟩,
         ⟨"d2", "g.pdf", some (some "Shared Name"), some []⟩] []).2
      ("Shared Name" ++ ".pdf") = 2 := by
  have h := rename_collision_spec nfkdModel "Shared Name"
    [⟨"d1", "g.pdf", some (some "Shared Name"), some []⟩,
     ⟨"d2", "g.pdf", some (some "Shared Name"), some []⟩] []
    (by decide) (by decide) (by decide)
  refine ⟨?_, ?_⟩
  · rw [h.1]
    decide
  · rw [h.2.2.1]
    decide

/-! ### Claim C5: filesystem lemmas for the two-run analysis -/

theorem findFile_cons (a : PdfFile) (fs : Fs) (q : FsPath) :
    findFile (a :: fs) q = if a.path = q then some a else findFile fs q := by
  unfold findFile
  by_cases h : a.path = q
  · rw [List.find?_cons_of_pos _ (by simpa using h), if_pos h]
  · rw [List.find?_cons_of_neg _ (by simpa using h), if_neg h]

theorem renameFile_cons (a : PdfFile) (fs : Fs) (p tgt : FsPath) :
    renameFile (a :: fs) p tgt
      = (if a.path = p then { a with dir := tgt.dir, name := tgt.name } else a)
          :: renameFile fs p tgt := rfl

theorem enumerate_cons (a : PdfFile) (fs : Fs) :
    enumerate (a :: fs)
      = if isPdfName a.name = true then a.path :: enumerate fs else enumerate fs := by
  unfold enumerate
  rw [List.filter_cons]
  by_cases h : isPdfName a.name = true
  · rw [if_pos h, if_pos h, List.map_cons]
  · rw [if_neg h, if_neg h]

theorem movedFile_path (a : PdfFile) (tgt : FsPath) :
    ({ a with dir := tgt.dir, name := tgt.name } : PdfFile).path = tgt := rfl

theorem findFile_mem {fs : Fs} {p : FsPath} {g : PdfFile}
    (h : findFile fs p = some g) : g ∈ fs ∧ g.path = p := by
  unfold findFile at h
  refine ⟨List.mem_of_find?_eq_some h, ?_⟩
  have h2 := List.find?_some h
  simpa using h2

theorem findFile_self {fs : Fs} (hnd : (fs.map PdfFile.path).Nodup) :
    ∀ {g : PdfFile}, g ∈ fs → findFile fs g.path = some g := by
  induction fs with
  | nil =>
    intro g hg
    cases hg
  | cons a fs ih =>
    intro g hg
    rw [List.map_cons] at hnd
    have hnd2 := List.nodup_cons.mp hnd
    rw [findFile_cons]
    rcases List.mem_cons.mp hg with h | h
    · subst h
      rw [if_pos rfl]
    · have hne : a.path ≠ g.path := by
        intro he
        exact hnd2.1 (by rw [he]; exact List.mem_map_of_mem PdfFile.path h)
      rw [if_neg hne]
      exact ih hnd2.2 h

theorem fsExists_of_findFile {fs : Fs} {p : FsPath} {g : PdfFile}
    (h : findFile fs p = some g) : fsExists fs p = true := by
  unfold fsExists
  rw [h]
  rfl

theorem findFile_renameFile_other {fs : Fs} {p tgt q : FsPath}
    (hq1 : q ≠ p) (hq2 : q ≠ tgt) :
    findFile (renameFile fs p tgt) q = findFile fs q := by
  induction fs with
  | nil => rfl
  | cons a fs ih =>
    rw [renameFile_cons]
    by_cases hap : a.path = p
    · rw [if_pos hap, findFile_cons, findFile_cons]
      rw [movedFile_path]
      rw [if_neg (fun he => hq2 he.symm), if_neg (by rw [hap]; exact fun he => hq1 he.symm)]
      exact ih
    · rw [if_neg hap, findFile_cons, findFile_cons]
      by_cases haq : a.path = q
      · rw [if_pos haq, if_pos haq]
      · rw [if_neg haq, if_neg haq]
        exact ih

theorem findFile_renameFile_target {fs : Fs} {p tgt : FsPath} {g : PdfFile}
    (hfind : findFile fs p = some g) (hex : fsExists fs tgt = false) :
    findFile (renameFile fs p tgt) tgt
      = some { g with dir := tgt.dir, name := tgt.name } := by
  induction fs with
  | nil => cases hfind
  | cons a fs ih =>
    have hat : a.path ≠ tgt := by
      intro he
      have hx : fsExists (a :: fs) tgt = true := by
        unfold fsExists
        rw [findFile_cons, if_pos he]
        rfl
      rw [hx] at hex
      cases hex
    have hex2 : fsExists fs tgt = false := by
      unfold fsExists at hex ⊢
      rw [findFile_cons, if_neg hat] at hex
      exact hex
    rw [renameFile_cons]
    rw [findFile_cons] at hfind
    by_cases hap : a.path = p
    · rw [if_pos hap] at hfind ⊢
      injection hfind with hfind
      subst hfind
      rw [findFile_cons, if_pos (movedFile_path _ tgt)]
    · rw [if_neg hap] at hfind ⊢
      rw [findFile_cons, if_neg hat]
      exact ih hfind hex2

theorem renameFile_paths (fs : Fs) (p tgt : FsPath) :
    (renameFile fs p tgt).map PdfFile.path
      = (fs.map PdfFile.path).map (fun q => if q = p then tgt else q) := by
  induction fs with
  | nil => rfl
  | cons a fs ih =>
    rw [renameFile_cons, List.map_cons, List.map_cons, List.map_cons, ih]
    congr 1
    by_cases hap : a.path = p
    · rw [if_pos hap, if_pos hap, movedFile_path]
    · rw [if_neg hap, if_neg hap]

theorem fsExists_false_not_mem {fs : Fs} {tgt : FsPath}
    (hex : fsExists fs tgt = false) : tgt ∉ fs.map PdfFile.path := by
  intro hmem
  obtain ⟨g, hg, hgp⟩ := List.mem_map.mp hmem
  have : findFile fs tgt ≠ none := by
    unfold findFile
    intro hnone
    have h2 := List.find?_eq_none.mp hnone g hg
    simp [hgp] at h2
  unfold fsExists at hex
  cases hff : findFile fs tgt with
  | none => exact this hff
  | some g' =>
    rw [hff] at hex
    cases hex

theorem replace_paths_nodup {l : List FsPath} {p tgt : FsPath}
    (hnd : l.Nodup) (htgt : tgt ∉ l) :
    (l.map (fun q => if q = p then tgt else q)).Nodup := by
  induction l with
  | nil => exact List.nodup_nil
  | cons q qs ih =>
    have hnd2 := List.nodup_cons.mp hnd
    have htgt2 : tgt ∉ qs := fun h => htgt (List.mem_cons_of_mem _ h)
    rw [List.map_cons, List.nodup_cons]
    constructor
    · intro hmem
      obtain ⟨r, hr, hre⟩ := List.mem_map.mp hmem
      by_cases hqp : q = p
      · rw [if_pos hqp] at hre
        by_cases hrp : r = p
        · rw [if_pos hrp] at hre
          exact hnd2.1 (by rw [hqp, ← hrp]; exact hr)
        · rw [if_neg hrp] at hre
          exact htgt2 (by rw [← hre]; exact hr)
      · rw [if_neg hqp] at hre
        by_cases hrp : r = p
        · rw [if_pos hrp] at hre
          exact htgt (by rw [hre]; exact List.mem_cons_self _ _)
        · rw [if_neg hrp] at hre
          exact hnd2.1 (by rw [← hre]; exact hr)
    · exact ih hnd2.2 htgt2

theorem paths_nodup_renameFile {fs : Fs} (p : FsPath) {tgt : FsPath}
    (hnd : (fs.map PdfFile.path).Nodup) (hex : fsExists fs tgt = false) :
    ((renameFile fs p tgt).map PdfFile.path).Nodup := by
  rw [renameFile_paths]
  exact replace_paths_nodup hnd (fsExists_false_not_mem hex)

theorem enumerate_renameFile {fs : Fs} {p tgt : FsPath}
    (hp : isPdfName p.name = true) (htgt : isPdfName tgt.name = true) :
    enumerate (renameFile fs p tgt)
      = (enumerate fs).map (fun q => if q = p then tgt else q) := by
  induction fs with
  | nil => rfl
  | cons a fs ih =>
    by_cases hap : a.path = p
    · have hname : a.name = p.name := congrArg FsPath.name hap
      rw [renameFile_cons, if_pos hap, enumerate_cons, enumerate_cons,
        if_pos (show isPdfName ({ a with dir := tgt.dir, name := tgt.name } : PdfFile).name
          = true from htgt),
        if_pos (show isPdfName a.name = true by rw [hname]; exact hp),
        List.map_cons, ih]
      congr 1
      rw [movedFile_path, if_pos hap]
    · rw [renameFile_cons, if_neg hap, enumerate_cons, enumerate_cons]
      by_cases han : isPdfName a.name = true
      · rw [if_pos han, if_pos han, List.map_cons, ih]
        congr 1
        rw [if_neg hap]
      · rw [if_neg han, if_neg han, ih]

/-! ### Claim C5: content-determined titles and self-target runs -/

theorem get_pdf_title_metadata_content (nf : String → String) {g g' : PdfFile}
    (hm : g'.metaRead = g.metaRead) :
    get_pdf_title_metadata nf g' = get_pdf_title_metadata nf g := by
  unfold get_pdf_title_metadata
  rw [hm]

theorem get_pdf_title_text_content (nf : String → String) {g g' : PdfFile}
    (hp : g'.pages = g.pages) :
    get_pdf_title_text nf g' = get_pdf_title_text nf g := by
  unfold get_pdf_title_text
  rw [hp]

theorem get_pdf_title_regex_content (nf : String → String) {g g' : PdfFile}
    (hp : g'.pages = g.pages) :
    get_pdf_title_using_regex nf g' = get_pdf_title_using_regex nf g := by
  unfold get_pdf_title_using_regex
  rw [hp]

theorem chainTitle_content (nf : String → String) {g g' : PdfFile}
    (hm : g'.metaRead = g.metaRead) (hp : g'.pages = g.pages) :
    chainTitle nf g' = chainTitle nf g := by
  unfold chainTitle
  rw [get_pdf_title_metadata_content nf hm, get_pdf_title_text_content nf hp,
    get_pdf_title_regex_content nf hp]

theorem extract_chain (nf : String → String) (g : PdfFile) {t : String}
    (h : chainTitle nf g = some t) : extract_best_title nf g = t := by
  unfold chainTitle at h
  unfold extract_best_title
  cases h1 : truthy (get_pdf_title_metadata nf g) with
  | some u =>
    rw [h1] at h
    simp at h
    exact h
  | none =>
    rw [h1] at h
    simp only [Option.none_or] at h
    cases h2 : truthy (get_pdf_title_text nf g) with
    | some u =>
      rw [h2] at h
      simp at h
      exact h
    | none =>
      rw [h2] at h
      simp only [Option.none_or] at h
      rw [h]

theorem rename_pdf_shape (nf : String → String) (f : PdfFile) (tbl : Table) :
    rename_pdf nf f tbl
      = if (decide (sanitize_filename (extract_best_title nf f) = "")
            || decide (pyLower (sanitize_filename (extract_best_title nf f))
              = "untitled")) = true
        then (f.path, tbl)
        else if 0 < tblGet tbl (sanitize_filename (extract_best_title nf f) ++ ".pdf")
          then (⟨f.dir, sanitize_filename (extract_best_title nf f) ++ "_"
                  ++ decRepr
                    (tblGet tbl (sanitize_filename (extract_best_title nf f) ++ ".pdf"))
                  ++ ".pdf"⟩,
                tblSet tbl (sanitize_filename (extract_best_title nf f) ++ ".pdf")
                  (tblGet tbl (sanitize_filename (extract_best_title nf f) ++ ".pdf") + 1))
          else (⟨f.dir, sanitize_filename (extract_best_title nf f) ++ ".pdf"⟩,
                tblSet tbl (sanitize_filename (extract_best_title nf f) ++ ".pdf")
                  (tblGet tbl (sanitize_filename (extract_best_title nf f) ++ ".pdf") + 1))
      := rfl

theorem rename_pdf_dir (nf : String → String) (f : PdfFile) (tbl : Table) :
    (rename_pdf nf f tbl).1.dir = f.dir := by
  rw [rename_pdf_shape]
  by_cases h1 : (decide (sanitize_filename (extract_best_title nf f) = "")
      || decide (pyLower (sanitize_filename (extract_best_title nf f)) = "untitled")) = true
  · rw [if_pos h1]
    rfl
  · rw [if_neg h1]
    by_cases h2 : 0 < tblGet tbl (sanitize_filename (extract_best_title nf f) ++ ".pdf")
    · rw [if_pos h2]
    · rw [if_neg h2]


theorem rename_pdf_content_name (nf : String → String) {g g' : PdfFile} (tbl : Table)
    (hm : g'.metaRead = g.metaRead) (hp : g'.pages = g.pages)
    (hc : chainTitle nf g ≠ none)
    (hn : g'.name = (rename_pdf nf g tbl).1.name) :
    rename_pdf nf g' tbl = (g'.path, (rename_pdf nf g tbl).2) := by
  obtain ⟨t, ht⟩ := Option.ne_none_iff_exists'.mp hc
  have hext : extract_best_title nf g = t := extract_chain nf g ht
  have hext' : extract_best_title nf g' = t := by
    refine extract_chain nf g' ?_
    rw [chainTitle_content nf hm hp]
    exact ht
  rw [rename_pdf_shape nf g, hext] at hn
  rw [rename_pdf_shape nf g', hext', rename_pdf_shape nf g, hext]
  by_cases hskip : (decide (sanitize_filename t = "")
      || decide (pyLower (sanitize_filename t) = "untitled")) = true
  · rw [if_pos hskip, if_pos hskip]
  · rw [if_neg hskip] at hn ⊢
    rw [if_neg hskip]
    by_cases hcnt : 0 < tblGet tbl (sanitize_filename t ++ ".pdf")
    · rw [if_pos hcnt] at hn ⊢
      rw [if_pos hcnt]
      show (⟨g'.dir, _⟩, _) = ((⟨g'.dir, g'.name⟩ : FsPath), _)
      rw [hn]
    · rw [if_neg hcnt] at hn ⊢
      rw [if_neg hcnt]
      show (⟨g'.dir, _⟩, _) = ((⟨g'.dir, g'.name⟩ : FsPath), _)
      rw [hn]

theorem selfTargets_cons (nf : String → String) (tbl : Table) (g : PdfFile)
    (rest : List PdfFile) :
    selfTargets nf tbl (g :: rest)
      ↔ ((rename_pdf nf g tbl).1 = g.path ∧
          selfTargets nf (rename_pdf nf g tbl).2 rest) :=
  Iff.rfl

theorem selfTargets_mk (nf : String → String) :
    ∀ (todo : List PdfFile) (tbl : Table),
      (∀ g ∈ todo, chainTitle nf g ≠ none) →
      selfTargets nf tbl (List.zipWith movedTo todo (renameSeq nf todo tbl).1) := by
  intro todo
  induction todo with
  | nil =>
    intro tbl _
    exact trivial
  | cons g rest ih =>
    intro tbl hchain
    have hrs : (renameSeq nf (g :: rest) tbl).1
        = (rename_pdf nf g tbl).1 :: (renameSeq nf rest (rename_pdf nf g tbl).2).1 := rfl
    rw [hrs, List.zipWith_cons_cons]
    have hchg : chainTitle nf g ≠ none := hchain g (List.mem_cons_self _ _)
    have hstep : rename_pdf nf (movedTo g (rename_pdf nf g tbl).1) tbl
        = ((movedTo g (rename_pdf nf g tbl).1).path, (rename_pdf nf g tbl).2) :=
      rename_pdf_content_name nf tbl rfl rfl hchg rfl
    rw [selfTargets_cons, hstep]
    exact ⟨rfl,
      ih (rename_pdf nf g tbl).2 (fun g0 hg0 => hchain g0 (List.mem_cons_of_mem _ hg0))⟩

theorem run_skip_all (nf : String → String) :
    ∀ (files : List PdfFile) (fsB : Fs) (tbl : Table) (log : List Event),
      (∀ g ∈ files, findFile fsB g.path = some g) →
      selfTargets nf tbl files →
      ((files.map PdfFile.path).foldl (processOne nf alwaysOk) (fsB, tbl, log)).1 = fsB ∧
      ∀ e ∈ ((files.map PdfFile.path).foldl (processOne nf alwaysOk) (fsB, tbl, log)).2.2,
        e ∈ log ∨ ∃ p, e = Event.skipped p p := by
  intro files
  induction files with
  | nil =>
    intro fsB tbl log _ _
    exact ⟨rfl, fun e he => Or.inl he⟩
  | cons g rest ih =>
    intro fsB tbl log hfind hself
    rw [List.map_cons, List.foldl_cons]
    have hg := hfind g (List.mem_cons_self _ _)
    have hstep : processOne nf alwaysOk (fsB, tbl, log) g.path
        = (fsB, (rename_pdf nf g tbl).2, log ++ [Event.skipped g.path g.path]) := by
      unfold processOne
      dsimp only
      rw [hg]
      dsimp only
      rw [if_neg (by
        intro hcontra
        exact hcontra.1 hself.1)]
      rw [hself.1]
    rw [hstep]
    obtain ⟨ih1, ih2⟩ := ih fsB (rename_pdf nf g tbl).2 (log ++ [Event.skipped g.path g.path])
      (fun g0 hg0 => hfind g0 (List.mem_cons_of_mem _ hg0)) hself.2
    refine ⟨ih1, ?_⟩
    intro e he
    rcases ih2 e he with h | h
    · rcases List.mem_append.mp h with h' | h'
      · exact Or.inl h'
      · rw [List.mem_singleton] at h'
        exact Or.inr ⟨g.path, h'⟩
    · exact Or.inr h

theorem movedTo_path (g : PdfFile) (q : FsPath) : (movedTo g q).path = q := rfl

theorem movedTo_self (g : PdfFile) : movedTo g g.path = g := rfl

theorem map_eq_self_of_fix {l : List FsPath} {f : FsPath → FsPath}
    (h : ∀ x ∈ l, f x = x) : l.map f = l := by
  rw [List.map_congr_left h]
  simp

theorem isPdfName_append_pdf (x : String) : isPdfName (x ++ ".pdf") = true := by
  unfold isPdfName
  rw [decide_eq_true_eq]
  refine ⟨x.toList, ?_⟩
  show x.data ++ ".pdf".data = (x ++ ".pdf").data
  rw [String.data_append]

theorem rename_pdf_pdfname (nf : String → String) (f : PdfFile) (tbl : Table) :
    (rename_pdf nf f tbl).1 = f.path ∨ isPdfName (rename_pdf nf f tbl).1.name = true := by
  rw [rename_pdf_shape]
  by_cases h1 : (decide (sanitize_filename (extract_best_title nf f) = "")
      || decide (pyLower (sanitize_filename (extract_best_title nf f)) = "untitled")) = true
  · rw [if_pos h1]
    exact Or.inl rfl
  · rw [if_neg h1]
    by_cases h2 : 0 < tblGet tbl (sanitize_filename (extract_best_title nf f) ++ ".pdf")
    · rw [if_pos h2]
      exact Or.inr (isPdfName_append_pdf _)
    · rw [if_neg h2]
      exact Or.inr (isPdfName_append_pdf _)

theorem foldl_processOne_mem_log (nf : String → String) (ok : FsPath → FsPath → Bool) :
    ∀ (ps : List FsPath) (st : Fs × Table × List Event) (e : Event),
      e ∈ st.2.2 → e ∈ (ps.foldl (processOne nf ok) st).2.2 := by
  intro ps
  induction ps with
  | nil =>
    intro st e he
    exact he
  | cons p ps ih =>
    intro st e he
    rw [List.foldl_cons]
    refine ih _ e ?_
    obtain ⟨e', he', _⟩ := processOne_log nf ok st p
    rw [he']
    exact List.mem_append.mpr (Or.inl he)

theorem run_pass (nf : String → String) :
    ∀ (todo : List PdfFile) (fs : Fs) (tbl : Table) (log : List Event) (pre : List FsPath),
      (∀ g ∈ todo, findFile fs g.path = some g) →
      (fs.map PdfFile.path).Nodup →
      ((todo.map PdfFile.path).Nodup) →
      (∀ g ∈ todo, isPdfName g.name = true) →
      (∀ s d, Event.skipped s d ∈
          ((todo.map PdfFile.path).foldl (processOne nf alwaysOk) (fs, tbl, log)).2.2 →
        d = s) →
      enumerate fs = pre ++ todo.map PdfFile.path →
      (∀ q ∈ pre, q ∉ todo.map PdfFile.path) →
      ((todo.map PdfFile.path).foldl (processOne nf alwaysOk) (fs, tbl, log)).2.1
          = (renameSeq nf todo tbl).2 ∧
      (((todo.map PdfFile.path).foldl (processOne nf alwaysOk) (fs, tbl, log)).1.map
          PdfFile.path).Nodup ∧
      (∀ q g0, findFile fs q = some g0 → q ∉ todo.map PdfFile.path →
        findFile ((todo.map PdfFile.path).foldl (processOne nf alwaysOk) (fs, tbl, log)).1 q
          = some g0) ∧
      (∀ g' ∈ List.zipWith movedTo todo (renameSeq nf todo tbl).1,
        findFile ((todo.map PdfFile.path).foldl (processOne nf alwaysOk) (fs, tbl, log)).1
          g'.path = some g') ∧
      enumerate ((todo.map PdfFile.path).foldl (processOne nf alwaysOk) (fs, tbl, log)).1
        = pre ++ (List.zipWith movedTo todo (renameSeq nf todo tbl).1).map PdfFile.path := by
  intro todo
  induction todo with
  | nil =>
    intro fs tbl log pre h1 h2 h3 h4 hclean henum hdisj
    refine ⟨rfl, h2, ?_, ?_, ?_⟩
    · intro q g0 hq _
      exact hq
    · intro g' hg'
      cases hg'
    · simpa using henum
  | cons g rest ih =>
    intro fs tbl log pre h1 h2 h3 h4 hclean henum hdisj
    have hg : findFile fs g.path = some g := h1 g (List.mem_cons_self _ _)
    have hnodup3 : g.path ∉ rest.map PdfFile.path ∧ (rest.map PdfFile.path).Nodup := by
      rw [List.map_cons] at h3
      exact List.nodup_cons.mp h3
    have hseq1 : (renameSeq nf (g :: rest) tbl).1
        = (rename_pdf nf g tbl).1 :: (renameSeq nf rest (rename_pdf nf g tbl).2).1 := rfl
    have hseq2 : (renameSeq nf (g :: rest) tbl).2
        = (renameSeq nf rest (rename_pdf nf g tbl).2).2 := rfl
    rw [List.map_cons, List.foldl_cons] at hclean ⊢
    by_cases hr1 : (rename_pdf nf g tbl).1 = g.path
    · have hstep : processOne nf alwaysOk (fs, tbl, log) g.path
          = (fs, (rename_pdf nf g tbl).2,
              log ++ [Event.skipped g.path (rename_pdf nf g tbl).1]) := by
        unfold processOne
        dsimp only
        rw [hg]
        dsimp only
        rw [if_neg (fun hc => hc.1 hr1)]
      rw [hstep] at hclean ⊢
      have hpre' : enumerate fs = (pre ++ [g.path]) ++ rest.map PdfFile.path := by
        rw [henum, List.map_cons]
        simp [List.append_assoc]
      have hdisj' : ∀ q ∈ pre ++ [g.path], q ∉ rest.map PdfFile.path := by
        intro q hq
        rcases List.mem_append.mp hq with h | h
        · intro hmem
          exact hdisj q h (by rw [List.map_cons]; exact List.mem_cons_of_mem _ hmem)
        · rw [List.mem_singleton] at h
          subst h
          exact hnodup3.1
      obtain ⟨c1, c2, c3, c4, c5⟩ := ih fs (rename_pdf nf g tbl).2
        (log ++ [Event.skipped g.path (rename_pdf nf g tbl).1]) (pre ++ [g.path])
        (fun g0 hg0 => h1 g0 (List.mem_cons_of_mem _ hg0)) h2 hnodup3.2
        (fun g0 hg0 => h4 g0 (List.mem_cons_of_mem _ hg0)) hclean hpre' hdisj'
      refine ⟨by rw [hseq2]; exact c1, c2, ?_, ?_, ?_⟩
      · intro q g0 hq hqn
        refine c3 q g0 hq ?_
        intro hmem
        exact hqn (List.mem_cons_of_mem _ hmem)
      · intro g' hg'
        rw [hseq1, List.zipWith_cons_cons] at hg'
        rcases List.mem_cons.mp hg' with h | h
        · subst h
          have hmv : movedTo g (rename_pdf nf g tbl).1 = g := by
            rw [hr1]
            exact movedTo_self g
          rw [hmv]
          exact c3 g.path g hg hnodup3.1
        · exact c4 g' h
      · rw [hseq1, List.zipWith_cons_cons, List.map_cons, movedTo_path, c5, hr1]
        simp [List.append_assoc]
    · by_cases hex : fsExists fs (rename_pdf nf g tbl).1 = false
      · have hstep : processOne nf alwaysOk (fs, tbl, log) g.path
            = (renameFile fs g.path (rename_pdf nf g tbl).1, (rename_pdf nf g tbl).2,
                log ++ [Event.renamed g.path (rename_pdf nf g tbl).1]) := by
          unfold processOne
          dsimp only
          rw [hg]
          dsimp only
          rw [if_pos ⟨hr1, hex⟩,
            if_pos (show alwaysOk g.path (rename_pdf nf g tbl).1 = true from rfl)]
        rw [hstep] at hclean ⊢
        have hpdft : isPdfName (rename_pdf nf g tbl).1.name = true := by
          rcases rename_pdf_pdfname nf g tbl with h | h
          · exact absurd h hr1
          · exact h
        have hgp_pdf : isPdfName (PdfFile.path g).name = true := h4 g (List.mem_cons_self _ _)
        have h1' : ∀ g0 ∈ rest, findFile (renameFile fs g.path (rename_pdf nf g tbl).1)
            g0.path = some g0 := by
          intro g0 hg0
          have hne1 : g0.path ≠ g.path := by
            intro he
            exact hnodup3.1 (by rw [← he]; exact List.mem_map_of_mem PdfFile.path hg0)
          have hne2 : g0.path ≠ (rename_pdf nf g tbl).1 := by
            intro he
            have hx := fsExists_of_findFile (h1 g0 (List.mem_cons_of_mem _ hg0))
            rw [he, hex] at hx
            cases hx
          rw [findFile_renameFile_other hne1 hne2]
          exact h1 g0 (List.mem_cons_of_mem _ hg0)
        have h2' := paths_nodup_renameFile g.path h2 hex
        have hhead : (if g.path = g.path then (rename_pdf nf g tbl).1 else g.path)
            = (rename_pdf nf g tbl).1 := if_pos rfl
        have hfix1 : pre.map (fun q => if q = g.path then (rename_pdf nf g tbl).1 else q)
            = pre :=
          map_eq_self_of_fix (fun q hq => if_neg (fun he => hdisj q hq
            (by rw [List.map_cons, he]; exact List.mem_cons_self _ _)))
        have hfix2 : (rest.map PdfFile.path).map
            (fun q => if q = g.path then (rename_pdf nf g tbl).1 else q)
            = rest.map PdfFile.path :=
          map_eq_self_of_fix (fun q hq => if_neg (fun he =>
            hnodup3.1 (by rw [← he]; exact hq)))
        have henum' : enumerate (renameFile fs g.path (rename_pdf nf g tbl).1)
            = (pre ++ [(rename_pdf nf g tbl).1]) ++ rest.map PdfFile.path := by
          rw [enumerate_renameFile hgp_pdf hpdft, henum, List.map_append, List.map_cons,
            List.map_cons, hfix1, hhead, hfix2]
          simp [List.append_assoc]
        have hdisj' : ∀ q ∈ pre ++ [(rename_pdf nf g tbl).1],
            q ∉ rest.map PdfFile.path := by
          intro q hq
          rcases List.mem_append.mp hq with h | h
          · intro hmem
            exact hdisj q h (by rw [List.map_cons]; exact List.mem_cons_of_mem _ hmem)
          · rw [List.mem_singleton] at h
            subst h
            intro hmem
            obtain ⟨g0, hg0, hg0p⟩ := List.mem_map.mp hmem
            have hx := fsExists_of_findFile (h1 g0 (List.mem_cons_of_mem _ hg0))
            rw [hg0p, hex] at hx
            cases hx
        obtain ⟨c1, c2, c3, c4, c5⟩ := ih (renameFile fs g.path (rename_pdf nf g tbl).1)
          (rename_pdf nf g tbl).2 (log ++ [Event.renamed g.path (rename_pdf nf g tbl).1])
          (pre ++ [(rename_pdf nf g tbl).1]) h1' h2' hnodup3.2
          (fun g0 hg0 => h4 g0 (List.mem_cons_of_mem _ hg0)) hclean henum' hdisj'
        refine ⟨by rw [hseq2]; exact c1, c2, ?_, ?_, ?_⟩
        · intro q g0 hq hqn
          have hne1 : q ≠ g.path := fun he =>
            hqn (by rw [he]; exact List.mem_cons_self _ _)
          have hne2 : q ≠ (rename_pdf nf g tbl).1 := by
            intro he
            have hx := fsExists_of_findFile hq
            rw [he, hex] at hx
            cases hx
          refine c3 q g0 ?_ ?_
          · rw [findFile_renameFile_other hne1 hne2]
            exact hq
          · intro hmem
            exact hqn (List.mem_cons_of_mem _ hmem)
        · intro g' hg'
          rw [hseq1, List.zipWith_cons_cons] at hg'
          rcases List.mem_cons.mp hg' with h | h
          · subst h
            rw [movedTo_path]
            refine c3 (rename_pdf nf g tbl).1 (movedTo g (rename_pdf nf g tbl).1) ?_ ?_
            · exact findFile_renameFile_target hg hex
            · intro hmem
              obtain ⟨g0, hg0, hg0p⟩ := List.mem_map.mp hmem
              have hx := fsExists_of_findFile (h1 g0 (List.mem_cons_of_mem _ hg0))
              rw [hg0p, hex] at hx
              cases hx
          · exact c4 g' h
        · rw [hseq1, List.zipWith_cons_cons, List.map_cons, movedTo_path, c5]
          simp [List.append_assoc]
      · exfalso
        have hexT : fsExists fs (rename_pdf nf g tbl).1 = true := by
          cases hb : fsExists fs (rename_pdf nf g tbl).1
          · exact absurd hb hex
          · rfl
        have hstep : processOne nf alwaysOk (fs, tbl, log) g.path
            = (fs, (rename_pdf nf g tbl).2,
                log ++ [Event.skipped g.path (rename_pdf nf g tbl).1]) := by
          unfold processOne
          dsimp only
          rw [hg]
          dsimp only
          rw [if_neg (fun hc => by rw [hexT] at hc; exact Bool.noConfusion hc.2)]
        rw [hstep] at hclean
        have hmem : Event.skipped g.path (rename_pdf nf g tbl).1
            ∈ ((rest.map PdfFile.path).foldl (processOne nf alwaysOk)
              (fs, (rename_pdf nf g tbl).2,
                log ++ [Event.skipped g.path (rename_pdf nf g tbl).1])).2.2 :=
          foldl_processOne_mem_log nf alwaysOk _ _ _
            (List.mem_append.mpr (Or.inr (List.mem_singleton.mpr rfl)))
        exact hr1 (hclean _ _ hmem)

/-- C5 (amended): running the orchestrator a second time over the result of
a first run performs no renames — every file is skipped because its
computed target equals its current path — provided (i) every `.pdf` file's
title comes from the extractor chain and not from the filename stem, and
(ii) the first run left every file at its computed target: every skip event
of the first run was a "target equals source" skip (never "target already
exists"), renames all succeeding and the initial paths being distinct.
Without (i) and (ii) a second run can rename files (see the
counterexample). -/
theorem second_run_no_renames (nf : String → String) (fs0 : Fs)
    (hnodup : (fs0.map PdfFile.path).Nodup)
    (hcontent : ∀ g ∈ fs0, isPdfName g.name = true → chainTitle nf g ≠ none)
    (hclean : ∀ s d,
      Event.skipped s d ∈ (rename_pdfs_in_directory nf alwaysOk true fs0).2 → d = s) :
    (rename_pdfs_in_directory nf alwaysOk true
        (rename_pdfs_in_directory nf alwaysOk true fs0).1).1
      = (rename_pdfs_in_directory nf alwaysOk true fs0).1 ∧
    ∀ e ∈ (rename_pdfs_in_directory nf alwaysOk true
        (rename_pdfs_in_directory nf alwaysOk true fs0).1).2,
      ∃ p, e = Event.skipped p p := by
  have hrun : ∀ (fs : Fs), rename_pdfs_in_directory nf alwaysOk true fs
      = (((enumerate fs).foldl (processOne nf alwaysOk) (fs, [], [])).1,
         ((enumerate fs).foldl (processOne nf alwaysOk) (fs, [], [])).2.2) := by
    intro fs
    unfold rename_pdfs_in_directory
    rw [if_neg (by simp)]
  have henum0 : enumerate fs0
      = (fs0.filter fun f => isPdfName f.name).map PdfFile.path := rfl
  have h1 : ∀ g ∈ (fs0.filter fun f => isPdfName f.name), findFile fs0 g.path = some g :=
    fun g hg => findFile_self hnodup (List.mem_of_mem_filter hg)
  have h3 : (((fs0.filter fun f => isPdfName f.name).map PdfFile.path)).Nodup :=
    List.Nodup.sublist (List.Sublist.map PdfFile.path (List.filter_sublist fs0)) hnodup
  have h4 : ∀ g ∈ (fs0.filter fun f => isPdfName f.name), isPdfName g.name = true := by
    intro g hg
    simpa using List.of_mem_filter hg
  have hchain : ∀ g ∈ (fs0.filter fun f => isPdfName f.name), chainTitle nf g ≠ none := by
    intro g hg
    exact hcontent g (List.mem_of_mem_filter hg) (by simpa using List.of_mem_filter hg)
  have hclean' : ∀ s d, Event.skipped s d ∈
      ((((fs0.filter fun f => isPdfName f.name).map PdfFile.path).foldl
        (processOne nf alwaysOk) (fs0, [], [])).2.2) → d = s := by
    intro s d hmem
    refine hclean s d ?_
    rw [hrun]
    exact hmem
  obtain ⟨c1, c2, c3, c4, c5⟩ := run_pass nf (fs0.filter fun f => isPdfName f.name)
    fs0 [] [] [] h1 hnodup h3 h4 hclean' (by simpa using henum0)
    (by intro q hq; cases hq)
  have hself := selfTargets_mk nf (fs0.filter fun f => isPdfName f.name) [] hchain
  rw [hrun fs0]
  have henum1 : enumerate ((((fs0.filter fun f => isPdfName f.name).map PdfFile.path).foldl
      (processOne nf alwaysOk) (fs0, [], [])).1)
      = (List.zipWith movedTo (fs0.filter fun f => isPdfName f.name)
          (renameSeq nf (fs0.filter fun f => isPdfName f.name) []).1).map PdfFile.path := by
    rw [c5]
    simp
  rw [hrun]
  dsimp only
  rw [henum0, henum1]
  obtain ⟨d1, d2⟩ := run_skip_all nf
    (List.zipWith movedTo (fs0.filter fun f => isPdfName f.name)
      (renameSeq nf (fs0.filter fun f => isPdfName f.name) []).1)
    ((((fs0.filter fun f => isPdfName f.name).map PdfFile.path).foldl
      (processOne nf alwaysOk) (fs0, [], [])).1) [] [] c4 hself
  refine ⟨d1, ?_⟩
  intro e he
  rcases d2 e he with h | h
  · cases h
  · exact h

/-- C5 counterexample: two files in the same directory — `a.pdf` whose
extracted title is `"Title"` and `Title.pdf` whose extracted title is
`"Stuff"`.  The first run skips `a.pdf` (its target `Title.pdf` is
occupied) and renames `Title.pdf` to `Stuff.pdf`; the second run then
renames `a.pdf` to the now-free `Title.pdf`, so running twice is not
rename-free. -/
theorem second_run_cex :
    Event.renamed ⟨"d", "a.pdf"⟩ ⟨"d", "Title.pdf"⟩
      ∈ (rename_pdfs_in_directory nfkdModel alwaysOk true
          (rename_pdfs_in_directory nfkdModel alwaysOk true
            [⟨"d", "a.pdf", some (some "Title"), some []⟩,
             ⟨"d", "Title.pdf", some (some "Stuff"), some []⟩]).1).2 := by
  decide

/-- Witness for `second_run_no_renames`: a single file renamed to
`Title.pdf` by the first run is only skipped by the second. -/
theorem second_run_no_renames_witness :
    (rename_pdfs_in_directory nfkdModel alwaysOk true
        (rename_pdfs_in_directory nfkdModel alwaysOk true
          [⟨"d", "a.pdf", some (some "Title"), some []⟩]).1).1
      = (rename_pdfs_in_directory nfkdModel alwaysOk true
          [⟨"d", "a.pdf", some (some "Title"), some []⟩]).1 ∧
    ∀ e ∈ (rename_pdfs_in_directory nfkdModel alwaysOk true
        (rename_pdfs_in_directory nfkdModel alwaysOk true
          [⟨"d", "a.pdf", some (some "Title"), some []⟩]).1).2,
      ∃ p, e = Event.skipped p p :=
  second_run_no_renames nfkdModel [⟨"d", "a.pdf", some (some "Title"), some []⟩]
    (by decide)
    (by
      intro g hg _
      rw [List.mem_singleton] at hg
      subst hg
      decide)
    (by
      intro s d hmem
      have hlog : (rename_pdfs_in_directory nfkdModel alwaysOk true
          [⟨"d", "a.pdf", some (some "Title"), some []⟩]).2
          = [Event.renamed ⟨"d", "a.pdf"⟩ ⟨"d", "Title.pdf"⟩] := by decide
      rw [hlog, List.mem_singleton] at hmem
      exact Event.noConfusion hmem)

end PdfRenamer
